import Mathlib

/-!
Verification of the UK-academic style assistant

Shallow embedding of `style_assistant_uk_academic.py` and
`uk_academic_humaniser.py`. Text is modelled as `List Char`; the Python
`re` operations used by the code (whole-word alternation matching,
substitution, splitting on terminal punctuation) are embedded as
executable scanners that follow the behaviour of the compiled patterns
on the concrete tables of the source. Word characters are modelled as
ASCII alphanumerics plus underscore (the inputs of this development are
ASCII). The only stochastic component (the connector draws of the humaniser)
is modelled by injectable streams of rational draws and pick indices, as
the specification requires the random source to be injectable.
-/

set_option maxRecDepth 20000

namespace StyleAssistant

/-- The apostrophe character (U+0027). -/
def apoc : Char := Char.ofNat 39

/-- Python regex word character `\w`, restricted to ASCII: `[A-Za-z0-9_]`. -/
def isWordChar (c : Char) : Bool := c.isAlphanum || c = '_'

/-- ASCII whitespace as stripped by Python `str.strip` / matched by `\s`. -/
def pySpace (c : Char) : Bool :=
  c = ' ' || c = '\t' || c = '\n' || c = '\r' || c = Char.ofNat 11 || c = Char.ofNat 12

/-- Sentence-terminal punctuation `[.!?]`. -/
def isTerm (c : Char) : Bool := c = '.' || c = '!' || c = '?'

/-- ASCII letter `[A-Za-z]`, the second character class of the
pattern `([.!?])([A-Za-z])` of the splitter. -/
def isAsciiLetter (c : Char) : Bool :=
  ('A' ≤ c && c ≤ 'Z') || ('a' ≤ c && c ≤ 'z')

/-- Python `str.strip`: drop whitespace from both ends. -/
def strip (l : List Char) : List Char :=
  ((l.dropWhile pySpace).reverse.dropWhile pySpace).reverse

/-- Python `re.sub(r"\s+", " ", text)`: collapse every maximal whitespace
run to a single space.  The boolean argument records whether the
previous character was part of a whitespace run. -/
def collapseGo : Bool → List Char → List Char
  | _, [] => []
  | prevSp, c :: cs =>
    if pySpace c then
      (if prevSp then collapseGo true cs else ' ' :: collapseGo true cs)
    else c :: collapseGo false cs

/-- Model of the splitter pre-pass `re.sub(r"([.!?])([A-Za-z])", r"\1 \2", text)`: insert a space between
a terminal punctuation mark and an immediately following letter.  The
regex continues scanning after each two-character match; since a letter
can never start a new match, restarting at the second character is
equivalent. -/
def insertSpaces : List Char → List Char
  | [] => []
  | [c] => [c]
  | c :: d :: rest =>
    if isTerm c && isAsciiLetter d then c :: ' ' :: insertSpaces (d :: rest)
    else c :: insertSpaces (d :: rest)

/-- The fused split-and-collect loop of `split_sentences`: splitting on
`([.!?])` with the separator kept pairs each piece with its terminal
mark (`parts[i] + parts[i+1]`), strips it, and keeps the non-empty
results; the trailing piece after the last mark is kept when non-empty
after stripping (the parts list of `re.split` with one capture group
always has odd length, so the final fragment is always considered). -/
def splitGo : List Char → List Char → List (List Char)
  | acc, [] => if strip acc = [] then [] else [strip acc]
  | acc, c :: cs =>
    if isTerm c then
      (if strip (acc ++ [c]) = [] then splitGo [] cs
       else strip (acc ++ [c]) :: splitGo [] cs)
    else splitGo (acc ++ [c]) cs

/-- Embedding of `split_sentences` of both source files (the two copies are
identical). -/
def split_sentencesL (l : List Char) : List (List Char) :=
  splitGo [] (insertSpaces l)

/-!
Word tokens

In `analyse_text`, `words` is computed by `findall` over the word
pattern of line 131 (a word-character run, optionally followed by a
capture group holding an apostrophe continuation).  Because the pattern
contains exactly one capture group, the Python `findall` returns the
*group* of each match (the apostrophe continuation, apostrophe
included), and the empty string when the optional group did not
participate
— not the matched word.  The scanner below reproduces this faithfully:
it emits one group string per word match.
-/

/-- State for the word scanner: `none` = outside a match, `some none` =
inside the leading `\w+` run, `some (some acc)` = inside the
apostrophe-continuation group (accumulated reversed). -/
def fgGo : Option (Option (List Char)) → List Char → List (List Char)
  | none, [] => []
  | some none, [] => [[]]
  | some (some acc), [] => [acc.reverse]
  | none, c :: cs => if isWordChar c then fgGo (some none) cs else fgGo none cs
  | some none, c :: cs =>
    if isWordChar c then fgGo (some none) cs
    else if c = apoc then
      (match cs with
       | [] => [[]]
       | d :: _ => if isWordChar d then fgGo (some (some [apoc])) cs
                   else [] :: fgGo none cs)
    else [] :: fgGo none cs
  | some (some acc), c :: cs =>
    if isWordChar c then fgGo (some (some (c :: acc))) cs
    else acc.reverse :: fgGo none cs

/-- The `words` list of `analyse_text` (line 131): one entry per word
match, each entry being the capture-group text. -/
def findGroups (l : List Char) : List (List Char) := fgGo none l

/-!
Generic whole-word alternation matching

All the compiled patterns of the source have the shape
`\b(k1|k2|...)\b` over a table of literal keys, optionally with
`re.IGNORECASE`.  Every key starts and ends with a word character, so
the leading `\b` holds exactly when the previous character is absent or
not a word character, and the trailing `\b` exactly when the following
character is absent or not a word character.  The scanners below carry
the previous-character word-ness as a boolean and keep the regex
left-to-right, first-alternative-wins, non-overlapping behaviour; after
a match the scan resumes right after the matched text, whose last
character supplies the next boundary state.
-/

/-- Character comparison, case-folded when `ci` is set
(`re.IGNORECASE`). -/
def charEq (ci : Bool) (a b : Char) : Bool :=
  if ci then a.toLower == b.toLower else a == b

/-- Match a literal key against the head of the text; returns the
consumed original characters and the remainder. -/
def prefMatch (ci : Bool) : List Char → List Char → Option (List Char × List Char)
  | [], l => some ([], l)
  | _ :: _, [] => none
  | k :: ks, c :: cs =>
    if charEq ci k c then
      (prefMatch ci ks cs).map (fun p => (c :: p.1, p.2))
    else none

/-- Trailing `\b` for a key ending in a word character: the remainder is
empty or starts with a non-word character. -/
def boundaryOk : List Char → Bool
  | [] => true
  | c :: _ => !isWordChar c

/-- Try the keys of the alternation in order at the current position;
first key that matches (with its trailing boundary) wins. -/
def tryTable (ci : Bool) : List (List Char) → List Char → Option (List Char × List Char)
  | [], _ => none
  | k :: ks, l =>
    match prefMatch ci k l with
    | some p => if boundaryOk p.2 then some p else tryTable ci ks l
    | none => tryTable ci ks l

/-- Boundary state after consuming a matched text: word-ness of its last
character (all table keys are non-empty, so the default is unused). -/
def lastIsWord (m : List Char) : Bool :=
  match m.getLast? with
  | some c => isWordChar c
  | none => true

/-- Model of `pattern.finditer`: list of matched texts, left to right.  Fuelled
by one unit per scan step; each step consumes at least one character, so
fuel `l.length` is always enough. -/
def scanGo (ci : Bool) (ks : List (List Char)) : Nat → Bool → List Char → List (List Char)
  | 0, _, _ => []
  | _ + 1, _, [] => []
  | f + 1, pw, c :: cs =>
    match (if pw then none else tryTable ci ks (c :: cs)) with
    | some p => p.1 :: scanGo ci ks f (lastIsWord p.1) p.2
    | none => scanGo ci ks f (isWordChar c) cs

/-- All matches of the alternation pattern in a text. -/
def scanAll (ci : Bool) (ks : List (List Char)) (l : List Char) : List (List Char) :=
  scanGo ci ks l.length false l

/-- Model of `pattern.sub(rf, text)`: replace every match by `rf` applied to the
matched text. -/
def subGo (ci : Bool) (ks : List (List Char)) (rf : List Char → List Char) :
    Nat → Bool → List Char → List Char
  | 0, _, l => l
  | _ + 1, _, [] => []
  | f + 1, pw, c :: cs =>
    match (if pw then none else tryTable ci ks (c :: cs)) with
    | some p => rf p.1 ++ subGo ci ks rf f (lastIsWord p.1) p.2
    | none => c :: subGo ci ks rf f (isWordChar c) cs

/-- Substitution over a whole text. -/
def subAll (ci : Bool) (ks : List (List Char)) (rf : List Char → List Char)
    (l : List Char) : List Char :=
  subGo ci ks rf l.length false l

/-!
The term tables of `style_assistant_uk_academic.py`

Keys are written with `apo` splicing in the apostrophe character.  The
source dictionary repeats the key I + apostrophe + m with the same value; a Python
dict keeps the first insertion position and the (identical) value, so
the table below lists it once.  Order is the dict insertion order, which
is the alternation order of the compiled patterns.
-/

/-- Build a contraction-style key `s1 ++ apostrophe ++ s2`. -/
def apo (s1 s2 : String) : List Char := s1.data ++ apoc :: s2.data

/-- Embedding of `CONTRACTION_MAP` (lines 34-67). -/
def CONTRACTION_MAP : List (List Char × List Char) :=
  [ (apo "don" "t", "do not".data)
  , (apo "doesn" "t", "does not".data)
  , (apo "didn" "t", "did not".data)
  , (apo "can" "t", "cannot".data)
  , ("cannot".data, "cannot".data)
  , (apo "won" "t", "will not".data)
  , (apo "isn" "t", "is not".data)
  , (apo "aren" "t", "are not".data)
  , (apo "wasn" "t", "was not".data)
  , (apo "weren" "t", "were not".data)
  , (apo "hasn" "t", "has not".data)
  , (apo "haven" "t", "have not".data)
  , (apo "hadn" "t", "had not".data)
  , (apo "wouldn" "t", "would not".data)
  , (apo "shouldn" "t", "should not".data)
  , (apo "couldn" "t", "could not".data)
  , (apo "I" "m", "I am".data)
  , (apo "you" "re", "you are".data)
  , (apo "we" "re", "we are".data)
  , (apo "they" "re", "they are".data)
  , (apo "it" "s", "it is".data)
  , (apo "that" "s", "that is".data)
  , (apo "there" "s", "there is".data)
  , (apo "I" "ve", "I have".data)
  , (apo "you" "ve", "you have".data)
  , (apo "we" "ve", "we have".data)
  , (apo "they" "ve", "they have".data)
  , (apo "I" "ll", "I will".data)
  , (apo "you" "ll", "you will".data)
  , (apo "we" "ll", "we will".data)
  , (apo "they" "ll", "they will".data) ]

/-- Embedding of `INFORMAL_MAP` (lines 70-86). -/
def INFORMAL_MAP : List (List Char × List Char) :=
  [ ("really".data, "highly / very (consider more precise wording)".data)
  , ("very".data, "intensely / extremely (or remove if unnecessary)".data)
  , ("a lot".data, "a substantial amount".data)
  , ("lots of".data, "many / numerous".data)
  , ("stuff".data, "material / content / items (be specific)".data)
  , ("things".data, "aspects / factors / elements (be specific)".data)
  , ("kids".data, "children".data)
  , ("big".data, "significant / substantial".data)
  , ("huge".data, "major / considerable".data)
  , ("basically".data, "fundamentally / essentially (or remove)".data)
  , ("pretty".data, "fairly / relatively (or remove)".data)
  , ("kind of".data, "somewhat / to some extent".data)
  , ("sort of".data, "somewhat / to some extent".data)
  , ("gonna".data, "going to".data)
  , ("wanna".data, "want to".data) ]

/-- Keys of `CONTRACTION_PATTERN` (line 93), in alternation order. -/
def ctrKeys : List (List Char) := CONTRACTION_MAP.map Prod.fst

/-- Keys of `INFORMAL_PATTERN` (line 88), in alternation order. -/
def infKeys : List (List Char) := INFORMAL_MAP.map Prod.fst

/-- Alternatives of `FIRST_PERSON_PATTERN` (line 97): the six
literal alternatives, case-sensitive. -/
def fpForms : List (List Char) :=
  ["I".data, "we".data, "We".data, "our".data, "Our".data, "us".data]

/-- Python `dict.get` on an association table. -/
def lookupT (t : List (List Char × List Char)) (k : List Char) : Option (List Char) :=
  (t.find? (fun p => p.1 == k)).map Prod.snd

/-- Model of `str.lower`, restricted to ASCII case folding. -/
def lowerL (l : List Char) : List Char := l.map Char.toLower

/-- Embedding of `repl_contraction` of `clean_text` (lines 225-227):
`CONTRACTION_MAP.get(word, CONTRACTION_MAP.get(word.lower(), word))`. -/
def replContraction (m : List Char) : List Char :=
  match lookupT CONTRACTION_MAP m with
  | some v => v
  | none =>
    match lookupT CONTRACTION_MAP (lowerL m) with
    | some v => v
    | none => m

/-- Embedding of `repl_informal` of `clean_text` (lines 232-238). -/
def replInformal (m : List Char) : List Char :=
  match lookupT INFORMAL_MAP (lowerL m) with
  | some sug => m ++ " (".data ++ sug ++ ")".data
  | none => m

/-!
Issues and `analyse_text`
-/

/-- The six issue kinds of the report. -/
inductive IssueKind
  | long_sentence
  | short_sentence
  | contraction
  | informal
  | first_person
  | repeated_start
deriving DecidableEq

/-- One issue record of `analyse_text`. -/
structure Issue where
  kind : IssueKind
  sentence_index : Nat
  message : List Char
  extract : List Char
deriving DecidableEq

/-- Decimal rendering of a sentence index or word count, as interpolated
by the f-strings. -/
def natStr (n : Nat) : List Char := (Nat.repr n).data

def longMsg (idx wc : Nat) : List Char :=
  "Sentence ".data ++ natStr idx ++ " is quite long (".data ++ natStr wc
    ++ " words). Consider splitting it for clarity.".data

def shortMsg (idx wc : Nat) : List Char :=
  "Sentence ".data ++ natStr idx ++ " is very short (".data ++ natStr wc
    ++ " words). In academic writing, you may wish to combine it with a neighbouring sentence.".data

def contrMsg (m : List Char) (idx : Nat) : List Char :=
  "Contraction ".data ++ apoc :: m ++ apoc :: " found in sentence ".data ++ natStr idx
    ++ ". Consider using the full form in academic writing.".data

/-- Suggestion used in informal-issue messages:
`INFORMAL_MAP.get(w.lower(), "Consider a more precise alternative.")`. -/
def infSuggestion (m : List Char) : List Char :=
  (lookupT INFORMAL_MAP (lowerL m)).getD "Consider a more precise alternative.".data

def infMsg (m : List Char) (idx : Nat) : List Char :=
  "Informal or vague word ".data ++ apoc :: m ++ apoc :: " in sentence ".data ++ natStr idx
    ++ ". ".data ++ infSuggestion m

def fpMsg (m : List Char) (idx : Nat) : List Char :=
  "First-person pronoun ".data ++ apoc :: m ++ apoc :: " in sentence ".data ++ natStr idx
    ++ ". Check if this is appropriate for your assignment guidelines.".data

def repMsg (start : List Char) : List Char :=
  "Several sentences start with ".data ++ apoc :: start
    ++ apoc :: ". Varying openings can improve academic style and flow.".data

/-- The per-sentence checks of the `analyse_text` loop (lines 130-191):
length flags (mutually exclusive), contraction matches, informal
matches, first-person matches — in that emission order. -/
def sentenceIssues (idx : Nat) (s : List Char) : List Issue :=
  let wc := (findGroups s).length
  (if wc > 35 then [⟨IssueKind.long_sentence, idx, longMsg idx wc, s⟩]
   else if wc < 7 then [⟨IssueKind.short_sentence, idx, shortMsg idx wc, s⟩]
   else [])
  ++ (scanAll false ctrKeys s).map (fun m => ⟨IssueKind.contraction, idx, contrMsg m idx, s⟩)
  ++ (scanAll true infKeys s).map (fun m => ⟨IssueKind.informal, idx, infMsg m idx, s⟩)
  ++ (scanAll false fpForms s).map (fun m => ⟨IssueKind.first_person, idx, fpMsg m idx, s⟩)

/-- The recorded sentence opening (lines 193-200): the lowercased
space-join of the first two entries of `words`, the single first entry,
or empty.  Note `words` holds capture groups, not words. -/
def openingKey (s : List Char) : List Char :=
  match findGroups s with
  | [] => []
  | [w] => lowerL w
  | w1 :: w2 :: _ => lowerL (w1 ++ ' ' :: w2)

/-- The repeated-start pass (lines 202-214): for each sentence whose
non-empty opening occurs more than twice in the document, emit one
`repeated_start` issue, in sentence order. -/
def repeatedStartIssues (sentences : List (List Char)) : List Issue :=
  let starts := sentences.map openingKey
  ((starts.zip sentences).enum).filterMap (fun p =>
    if p.2.1 ≠ [] ∧ starts.count p.2.1 > 2 then
      some ⟨IssueKind.repeated_start, p.1 + 1, repMsg p.2.1, p.2.2⟩
    else none)

/-- Embedding of `analyse_text` (lines 118-216): the sentence sequence and the issue
sequence (per-sentence issues in sentence order, then all
repeated-start issues). -/
def analyse_textL (l : List Char) : List (List Char) × List Issue :=
  let sentences := split_sentencesL l
  (sentences,
   (sentences.enum).flatMap (fun p => sentenceIssues (p.1 + 1) p.2)
     ++ repeatedStartIssues sentences)

/-!
`clean_text` and the humaniser
-/

/-- Word-splitting on single spaces, for the wrapping model. -/
def splitSpGo : List Char → List Char → List (List Char)
  | cur, [] => if cur.isEmpty then [] else [cur.reverse]
  | cur, c :: cs =>
    if c = ' ' then
      (if cur.isEmpty then splitSpGo [] cs else cur.reverse :: splitSpGo [] cs)
    else splitSpGo (c :: cur) cs

/-- Greedy line filling. -/
def wrapGo (width : Nat) : List Char → List (List Char) → List Char
  | line, [] => line
  | line, w :: ws =>
    if line.isEmpty then wrapGo width w ws
    else if line.length + 1 + w.length ≤ width then wrapGo width (line ++ ' ' :: w) ws
    else line ++ '\n' :: wrapGo width w ws

/-- Model of `textwrap.fill(text, width)` for whitespace-collapsed,
stripped input: greedy packing of space-separated words into lines of at
most `width` columns.  (Long-word breaking is not modelled; every use in
this development keeps words below the width.) -/
def fill (width : Nat) (l : List Char) : List Char :=
  wrapGo width [] (splitSpGo [] l)

/-- The contraction-substitution step of `clean_text` (line 229). -/
def cleanContractions (l : List Char) : List Char :=
  subAll false ctrKeys replContraction l

/-- Embedding of `clean_text` (lines 219-243): expand contractions, annotate informal
terms, collapse whitespace, strip, wrap. -/
def clean_textL (wrap : Nat) (l : List Char) : List Char :=
  fill wrap (strip (collapseGo false
    (subAll true infKeys replInformal (cleanContractions l))))

/-- Embedding of `ACADEMIC_CONNECTORS` of `uk_academic_humaniser.py` (lines 21-29). -/
def ACADEMIC_CONNECTORS : List (List Char) :=
  [ "Moreover, ".data
  , "Furthermore, ".data
  , "In addition, ".data
  , "It is also important to note that ".data
  , "However, ".data
  , "Consequently, ".data
  , "Therefore, ".data ]

/-- Embedding of `LIGHT_REPHRASINGS` (lines 32-39): case-insensitive whole-word
patterns with their replacements, applied in order. -/
def LIGHT_REPHRASINGS : List (List Char × List Char) :=
  [ ("in conclusion".data, "overall".data)
  , ("therefore".data, "therefore".data)
  , ("moreover".data, "moreover".data)
  , ("furthermore".data, "furthermore".data)
  , ("in addition".data, "in addition".data)
  , ("to summarise".data, "to summarise".data) ]

/-- Embedding of `apply_light_rephrasings` (lines 56-59): sequential case-insensitive
whole-word substitutions. -/
def apply_light_rephrasings (l : List Char) : List Char :=
  LIGHT_REPHRASINGS.foldl (fun t p => subAll true [p.1] (fun _ => p.2) t) l

/-- Injectable random source: a stream of `random.random()` draws (as
rationals in `[0,1)`) and a stream of pick indices for
`random.choice`, with the current positions. -/
structure RNG where
  floats : Nat → ℚ
  picks : Nat → Nat
  fpos : Nat
  ppos : Nat

/-- Model of `random.random()`. -/
def randomRandom (g : RNG) : ℚ × RNG :=
  (g.floats g.fpos, ⟨g.floats, g.picks, g.fpos + 1, g.ppos⟩)

/-- Model of `random.choice` on a list of length `n`: the next pick index,
reduced mod `n`. -/
def randomChoice (g : RNG) (n : Nat) : Nat × RNG :=
  (g.picks g.ppos % n, ⟨g.floats, g.picks, g.fpos, g.ppos + 1⟩)

/-- Python `s or original`. -/
def orOriginal (x orig : List Char) : List Char := if x.isEmpty then orig else x

/-- Model of `s[0].lower() + s[1:]` (total; the source only applies it to
non-empty sentences). -/
def lowerFirst : List Char → List Char
  | [] => []
  | c :: cs => c.toLower :: cs

/-- Embedding of `academic_tone` (lines 62-74): light rephrasing, then — for
`0 < idx < total` with probability 0.35 — prepend a random connector and
lower-case the first letter. -/
def academic_tone (g : RNG) (s : List Char) (idx total : Nat) : List Char × RNG :=
  let s1 := apply_light_rephrasings s
  if 0 < idx ∧ idx < total then
    let p := randomRandom g
    if p.1 < (35 : ℚ) / 100 then
      let c := randomChoice p.2 ACADEMIC_CONNECTORS.length
      (orOriginal (ACADEMIC_CONNECTORS.getD c.1 [] ++ lowerFirst s1) s, c.2)
    else (orOriginal s1 s, p.2)
  else (orOriginal s1 s, g)

/-- The sentence loop of `humanise_uk_academic`, threading the random
source. -/
def humaniseGo : Nat → RNG → Nat → List (List Char) → List (List Char) × RNG
  | _, g, _, [] => ([], g)
  | total, g, idx, s :: ss =>
    let p := academic_tone g s idx total
    let q := humaniseGo total p.2 (idx + 1) ss
    (p.1 :: q.1, q.2)

/-- Single-space join (`" ".join`). -/
def joinSp : List (List Char) → List Char
  | [] => []
  | [S] => S
  | S :: S2 :: rest => S ++ ' ' :: joinSp (S2 :: rest)

/-- Embedding of `humanise_uk_academic` (lines 77-91). -/
def humanise_uk_academicL (g : RNG) (wrap : Nat) (l : List Char) : List Char :=
  let t := strip (collapseGo false l)
  if t.isEmpty then []
  else
    let sentences := split_sentencesL t
    fill wrap (joinSp (humaniseGo sentences.length g 0 sentences).1)

/-- Fuel-free view of the scanner, always run with exactly enough
fuel. -/
def scanF (ci : Bool) (ks : List (List Char)) (b : Bool) (l : List Char) :
    List (List Char) :=
  scanGo ci ks l.length b l

/-- Fuel-free view of the substituter. -/
def subF (ci : Bool) (ks : List (List Char)) (rf : List Char → List Char)
    (b : Bool) (l : List Char) : List Char :=
  subGo ci ks rf l.length b l

/-- The connector-free result of `academic_tone`: the light rephrasing,
falling back to the original if empty (`s or original`). -/
def plainTone (s : List Char) : List Char :=
  orOriginal (apply_light_rephrasings s) s

/-!
Machinery for the idempotence of the contraction substitution

`subCF` is the contraction substitution with the previous-character
state explicit.  `firstMatch` locates the first replacement the engine
performs; `segScan` is a verified symbolic check that scanning a
concrete segment (a replacement string) followed by any boundary-safe
tail copies the segment verbatim; `hit` is the boolean whole-word match
test of a single key at the head of a text.
-/

/-- The contraction substitution from an explicit boundary state. -/
def subCF (b : Bool) (l : List Char) : List Char :=
  subF false ctrKeys replContraction b l

/-- Whole-word hit of key `k` at the head of `l` (prefix plus trailing
boundary); the leading boundary is the state of the caller. -/
def hit (k l : List Char) : Bool :=
  k.isPrefixOf l && boundaryOk (l.drop k.length)

/-- The after-apostrophe suffixes of a key, one per apostrophe
occurrence. -/
def tailsOfKey (k : List Char) : List (List Char) :=
  (List.range k.length).filterMap
    (fun a => if k.get? a = some apoc then some (k.drop (a + 1)) else none)

/-- Symbolic check of one key against a concrete segment whose unknown
continuation starts at a word boundary.  `some none`: the key can never
match; `some (some rest)`: the key always matches, consuming the
segment up to `rest`; `none`: undecided. -/
def keyCheck : List Char → List Char → Option (Option (List Char))
  | [], [] => some (some [])
  | [], d :: ds => if isWordChar d then some none else some (some (d :: ds))
  | k :: _, [] => if isWordChar k then some none else none
  | k :: ks, c :: cs => if k = c then keyCheck ks cs else some none

/-- Symbolic first-match check of the whole alternation against a
segment. -/
def tableCheck : List (List Char) → List Char → Option (Option (List Char × List Char))
  | [], _ => some none
  | k :: ks, seg =>
    match keyCheck k seg with
    | none => none
    | some none => tableCheck ks seg
    | some (some rest) => some (some (k, rest))

/-- Verified symbolic scan of a concrete segment: returns the boundary
state handed to the unknown continuation when the engine provably
copies the segment verbatim (identity replacements such as
`cannot → cannot` included). -/
def segScan : Nat → Bool → List Char → Option Bool
  | 0, b, [] => some b
  | 0, _, _ :: _ => none
  | _ + 1, b, [] => some b
  | f + 1, b, c :: cs =>
    if b then segScan f (isWordChar c) cs
    else
      match tableCheck ctrKeys (c :: cs) with
      | none => none
      | some none => segScan f (isWordChar c) cs
      | some (some (k, rest)) =>
        if replContraction k = k then segScan f (lastIsWord k) rest else none

/-- Locate the first replacement of the substitution scan: the
match-free prefix, the matched key and the remainder. -/
def firstMatch : Nat → Bool → List Char → Option (List Char × List Char × List Char)
  | 0, _, _ => none
  | _ + 1, _, [] => none
  | f + 1, pw, c :: cs =>
    match (if pw then none else tryTable false ctrKeys (c :: cs)) with
    | some p => some ([], p.1, p.2)
    | none => (firstMatch f (isWordChar c) cs).map (fun q => (c :: q.1, q.2.1, q.2.2))

/-- Boundary state after scanning a literal run. -/
def stateAfter (b : Bool) : List Char → Bool
  | [] => b
  | c :: lit => stateAfter (isWordChar c) lit

/-- A literal (match-free) run of the substitution scan: at every
position either the previous character was a word character or the
alternation fails. -/
inductive LitFree : Bool → List Char → List Char → Prop
  | nil (b : Bool) (cont : List Char) : LitFree b [] cont
  | cons (b : Bool) (c : Char) (lit cont : List Char) :
      (b = true ∨ tryTable false ctrKeys (c :: (lit ++ cont)) = none) →
      LitFree (isWordChar c) lit cont →
      LitFree b (c :: lit) cont

/-- The conditions on a continuation `Z` under which a match-free run
stays match-free: `Z` opens with a word character (so a key ending at
the junction still fails its trailing boundary), and no after-apostrophe
tail of a key matches at the head of `Z` (so no key can span
the junction). -/
def ZOK (Z : List Char) : Prop :=
  (∃ z zs, Z = z :: zs ∧ isWordChar z = true) ∧
  ∀ k ∈ ctrKeys, ∀ t ∈ tailsOfKey k, hit t Z = false

/-- A non-final sentence shape: terminal-free body, one trailing
terminal mark, already stripped. -/
def GoodNF (S : List Char) : Prop :=
  ∃ y T, S = y ++ [T] ∧ isTerm T = true ∧ (∀ c ∈ y, isTerm c = false) ∧ strip S = S

/-- A final-fragment shape: non-empty, terminal-free, stripped. -/
def GoodF (S : List Char) : Prop :=
  S ≠ [] ∧ (∀ c ∈ S, isTerm c = false) ∧ strip S = S

/-- Well-formedness of a segmentation output. -/
def GoodList : List (List Char) → Prop
  | [] => True
  | [S] => GoodNF S ∨ GoodF S
  | S :: S2 :: rest => GoodNF S ∧ GoodList (S2 :: rest)

/-- Absence of terminal-letter adjacencies (so `insertSpaces` is the
identity). -/
def noTLadj : List Char → Prop
  | [] => True
  | [_] => True
  | a :: b :: t => (isTerm a = true → isAsciiLetter b = false) ∧ noTLadj (b :: t)

/-- All whole-word occurrences of the six first-person forms, checked
at every position. -/
def fpOcc : Bool → List Char → List (List Char)
  | _, [] => []
  | pw, c :: cs =>
    (match (if pw then none else tryTable false fpForms (c :: cs)) with
     | some p => [p.1]
     | none => []) ++ fpOcc (isWordChar c) cs

/-!
Concrete documents used by the claims
-/

/-- The C4 test document: I do not(contracted) think it is(contracted) a big deal. This is fine. -/
def doc4 : List Char :=
  "I don".data ++ apoc :: "t think it".data ++ apoc :: "s a big deal. This is fine.".data

/-- First sentence of `doc4` as segmented. -/
def doc4s1 : List Char :=
  "I don".data ++ apoc :: "t think it".data ++ apoc :: "s a big deal.".data

/-- Second sentence of `doc4` as segmented. -/
def doc4s2 : List Char := "This is fine.".data

/-- A document whose intended opening `the results` occurs exactly twice
(and `other words` exactly twice). -/
def doc2 : List Char :=
  "The results are clear. The results are clear. Other words are here. Other words are here.".data

/-- A document with a capitalised contraction: Don + apostrophe + t worry. -/
def doc3 : List Char := "Don".data ++ apoc :: "t worry.".data

/-!
C4, C1, C2, C3: concrete evaluations of the analyser and cleaner
-/

/-- C4 (confirmed). On the document `doc4`, `analyse_text` returns
exactly: one `contraction` issue for each of the two contracted forms
(do not / it is) with sentence index 1, an `informal` issue
for `big` in sentence 1, a `first_person` issue for `I` in sentence 1,
and a `short_sentence` issue for sentence 2 (3 words) — and nothing
else. -/
theorem analyse_doc4_exact :
    analyse_textL doc4 =
      ([doc4s1, doc4s2],
       [ ⟨IssueKind.contraction, 1, contrMsg (apo "don" "t") 1, doc4s1⟩
       , ⟨IssueKind.contraction, 1, contrMsg (apo "it" "s") 1, doc4s1⟩
       , ⟨IssueKind.informal, 1, infMsg "big".data 1, doc4s1⟩
       , ⟨IssueKind.first_person, 1, fpMsg "I".data 1, doc4s1⟩
       , ⟨IssueKind.short_sentence, 2, shortMsg 2 3, doc4s2⟩ ]) := by
  decide

/-- C1 (code bug). The opening key recorded for a sentence beginning
`"The results"` is the single space `" "` — the join of the two empty
capture groups returned by `findall` — not `"the results"`: the code
joins capture groups where its comments say "first 2 words". -/
theorem openingKey_is_group_join :
    openingKey "The results are clear.".data = [' '] ∧
    (split_sentencesL "The results are clear.".data).map openingKey = [[' ']] ∧
    [' '] ≠ "the results".data := by
  decide

/-- C2 (code bug). On a document where the opening `the results`
occurs exactly twice (and `other words` exactly twice), the analyser
emits a `repeated_start` issue for all four sentences, because every
opening key degenerates to `" "` (which then occurs four times); the
specified behaviour would emit none. -/
theorem repeatedStart_fires_on_doc2 :
    ((analyse_textL doc2).2.filter
        (fun i => i.kind == IssueKind.repeated_start)).length = 4 ∧
    (split_sentencesL doc2).map openingKey = [[' '], [' '], [' '], [' ']] := by
  decide

/-- C3 (code bug). `CONTRACTION_PATTERN` is compiled without
`re.IGNORECASE`, so the capitalised contraction of `doc3` is not matched: the
analyser emits no contraction issue for it and `clean_text` leaves the
text unchanged — while the lowercase form is matched and expanded (the
`word.lower()` fallback of `repl_contraction` is evidence the
case-insensitive behaviour was intended). -/
theorem capitalised_contraction_unmatched :
    scanAll false ctrKeys doc3 = [] ∧
    (analyse_textL doc3).2.filter (fun i => i.kind == IssueKind.contraction) = [] ∧
    clean_textL 90 doc3 = doc3 ∧
    cleanContractions ("don".data ++ apoc :: "t worry.".data) = "do not worry.".data := by
  decide

/-!
Basic facts about stripping and the splitter
-/

theorem isTerm_not_letter {c : Char} (h : isTerm c = true) : isAsciiLetter c = false := by
  rcases (by simpa [isTerm] using h : (c = '.' ∨ c = '!') ∨ c = '?') with (rfl | rfl) | rfl <;>
    decide

theorem isTerm_not_space {c : Char} (h : isTerm c = true) : pySpace c = false := by
  rcases (by simpa [isTerm] using h : (c = '.' ∨ c = '!') ∨ c = '?') with (rfl | rfl) | rfl <;>
    decide

theorem pySpace_not_term {c : Char} (h : pySpace c = true) : isTerm c = false := by
  rcases (by simpa [pySpace] using h :
      ((((c = ' ' ∨ c = '\t') ∨ c = '\n') ∨ c = '\r') ∨ c = Char.ofNat 11) ∨ c = Char.ofNat 12)
    with ((((rfl | rfl) | rfl) | rfl) | rfl) | rfl <;> decide

theorem dropWhile_append_all (p : Char → Bool) :
    ∀ ws l : List Char, (∀ c ∈ ws, p c = true) →
      List.dropWhile p (ws ++ l) = List.dropWhile p l := by
  intro ws
  induction ws with
  | nil => intro l _; rfl
  | cons a ws ih =>
    intro l h
    have ha : p a = true := h a (by simp)
    simp only [List.cons_append, List.dropWhile_cons, ha, if_true]
    exact ih l (fun c hc => h c (by simp [hc]))

theorem dropWhile_head_false (p : Char → Bool) :
    ∀ l h t, List.dropWhile p l = h :: t → p h = false := by
  intro l
  induction l with
  | nil => intro h t hd; simp [List.dropWhile] at hd
  | cons a l ih =>
    intro h t hd
    rw [List.dropWhile_cons] at hd
    by_cases ha : p a = true
    · rw [if_pos ha] at hd
      exact ih h t hd
    · rw [if_neg ha] at hd
      cases hd
      simpa using ha

theorem dropWhile_eq_self_of_head (p : Char → Bool) :
    ∀ l : List Char, (∀ h, l.head? = some h → p h = false) →
      List.dropWhile p l = l := by
  intro l h
  cases l with
  | nil => rfl
  | cons a l => simp [List.dropWhile_cons, h a rfl]

theorem dropWhile_append_single (p : Char → Bool) {c : Char} (hc : p c = false) :
    ∀ acc : List Char, List.dropWhile p (acc ++ [c]) = List.dropWhile p acc ++ [c] := by
  intro acc
  induction acc with
  | nil => simp [List.dropWhile_cons, hc]
  | cons a acc ih =>
    by_cases ha : p a = true
    · simp [List.dropWhile_cons, ha, ih]
    · simp [List.dropWhile_cons, ha]

theorem dropWhile_idem (p : Char → Bool) (l : List Char) :
    List.dropWhile p (List.dropWhile p l) = List.dropWhile p l := by
  apply dropWhile_eq_self_of_head
  intro h hd
  cases hl : List.dropWhile p l with
  | nil => rw [hl] at hd; simp at hd
  | cons a t =>
    rw [hl] at hd
    simp only [List.head?_cons, Option.some.injEq] at hd
    rw [← hd]
    exact dropWhile_head_false p l a t hl

theorem getLast?_dropWhile (p : Char → Bool) :
    ∀ l : List Char, List.dropWhile p l = [] ∨
      (List.dropWhile p l).getLast? = l.getLast? := by
  intro l
  induction l with
  | nil => exact Or.inl rfl
  | cons a l ih =>
    by_cases ha : p a = true
    · rw [List.dropWhile_cons, if_pos ha]
      rcases ih with h | h
      · exact Or.inl h
      · cases l with
        | nil => exact Or.inl rfl
        | cons b t => exact Or.inr (by rw [h, List.getLast?_cons_cons])
    · rw [List.dropWhile_cons, if_neg ha]
      exact Or.inr rfl

/-- Stripping ignores an all-whitespace prefix. -/
theorem strip_space_pre {ws : List Char} (hws : ∀ c ∈ ws, pySpace c = true)
    (l : List Char) : strip (ws ++ l) = strip l := by
  unfold strip
  rw [dropWhile_append_all pySpace ws l hws]

/-- Stripping a list that ends in a non-whitespace character keeps that
character and left-strips the rest. -/
theorem strip_append_single {c : Char} (hc : pySpace c = false) (acc : List Char) :
    strip (acc ++ [c]) = List.dropWhile pySpace acc ++ [c] := by
  unfold strip
  rw [dropWhile_append_single pySpace hc acc]
  rw [List.reverse_append]
  simp only [List.reverse_cons, List.reverse_nil, List.nil_append, List.cons_append,
    List.dropWhile_cons, hc, if_false]
  simp

/-- The emissions of the splitter are already stripped. -/
theorem strip_emission {c : Char} (hc : pySpace c = false) (acc : List Char) :
    strip (List.dropWhile pySpace acc ++ [c]) = List.dropWhile pySpace acc ++ [c] := by
  rw [strip_append_single hc, dropWhile_idem]

/-- Stripping is idempotent. -/
theorem strip_idem (l : List Char) : strip (strip l) = strip l := by
  unfold strip
  set D := List.dropWhile pySpace l with hD
  set F := List.dropWhile pySpace D.reverse with hF
  have h1 : List.dropWhile pySpace F.reverse = F.reverse := by
    apply dropWhile_eq_self_of_head
    intro h hd
    rw [List.head?_reverse] at hd
    rcases getLast?_dropWhile pySpace D.reverse with he | he
    · rw [← hF] at he; rw [he] at hd; simp at hd
    · rw [← hF] at he
      rw [he, List.getLast?_reverse] at hd
      cases hDn : D with
      | nil => rw [hDn] at hd; simp at hd
      | cons a t =>
        rw [hDn] at hd
        simp only [List.head?_cons, Option.some.injEq] at hd
        rw [← hd]
        exact dropWhile_head_false pySpace l a t (hD ▸ hDn)
  rw [h1]
  have h2 : List.dropWhile pySpace F.reverse.reverse = F := by
    rw [List.reverse_reverse]
    apply dropWhile_eq_self_of_head
    intro h hd
    cases hFn : F with
    | nil => rw [hFn] at hd; simp at hd
    | cons a t =>
      rw [hFn] at hd
      simp only [List.head?_cons, Option.some.injEq] at hd
      rw [← hd]
      exact dropWhile_head_false pySpace D.reverse a t (hF ▸ hFn)
  rw [h2]

/-!
Splitter lemmas
-/

/-- Unfolding helper for the two-character step of `insertSpaces`. -/
theorem insertSpaces_cons2 (a b : Char) (t : List Char) :
    insertSpaces (a :: b :: t) =
      if isTerm a && isAsciiLetter b then a :: ' ' :: insertSpaces (b :: t)
      else a :: insertSpaces (b :: t) := rfl

theorem insertSpaces_head (c : Char) (l : List Char) :
    ∃ z, insertSpaces (c :: l) = c :: z := by
  cases l with
  | nil => exact ⟨[], rfl⟩
  | cons d t =>
    rw [insertSpaces_cons2]
    split
    · exact ⟨_, rfl⟩
    · exact ⟨_, rfl⟩

/-- The pre-pass `insertSpaces` keeps two adjacent terminal marks adjacent: a
terminal is not a letter, so no space is inserted between them or
before the first one. -/
theorem insertSpaces_adj {T1 T2 : Char} (h1 : isTerm T1 = true) (h2 : isTerm T2 = true)
    (v : List Char) : ∀ u, ∃ w v2, insertSpaces (u ++ T1 :: T2 :: v) = w ++ T1 :: T2 :: v2 := by
  have base : ∃ z, insertSpaces (T1 :: T2 :: v) = T1 :: T2 :: z := by
    obtain ⟨z, hz⟩ := insertSpaces_head T2 v
    refine ⟨z, ?_⟩
    rw [insertSpaces_cons2, hz]
    simp [isTerm_not_letter h2]
  intro u
  induction u with
  | nil =>
    obtain ⟨z, hz⟩ := base
    exact ⟨[], z, by simpa using hz⟩
  | cons a u ih =>
    cases u with
    | nil =>
      obtain ⟨z, hz⟩ := base
      refine ⟨[a], z, ?_⟩
      simp only [List.cons_append, List.nil_append]
      rw [insertSpaces_cons2, hz]
      simp [isTerm_not_letter h1]
    | cons b u2 =>
      obtain ⟨w, v2, hw⟩ := ih
      simp only [List.cons_append] at hw ⊢
      rw [insertSpaces_cons2, hw]
      split
      · exact ⟨a :: ' ' :: w, v2, rfl⟩
      · exact ⟨a :: w, v2, rfl⟩

theorem strip_nil : strip [] = [] := rfl

theorem splitGo_nil (acc : List Char) :
    splitGo acc [] = if strip acc = [] then [] else [strip acc] := rfl

theorem splitGo_cons_term {c : Char} (hc : isTerm c = true) (acc cs : List Char) :
    splitGo acc (c :: cs) =
      if strip (acc ++ [c]) = [] then splitGo [] cs
      else strip (acc ++ [c]) :: splitGo [] cs := by
  simp [splitGo, hc]

theorem splitGo_cons_nonterm {c : Char} (hc : isTerm c = false) (acc cs : List Char) :
    splitGo acc (c :: cs) = splitGo (acc ++ [c]) cs := by
  simp [splitGo, hc]

/-- Splitting distributes over an inner terminal mark: everything after
it is processed with a fresh accumulator. -/
theorem splitGo_term {T : Char} (hT : isTerm T = true) :
    ∀ (x : List Char) (acc r : List Char),
      splitGo acc (x ++ T :: r) = splitGo acc (x ++ [T]) ++ splitGo [] r := by
  intro x
  induction x with
  | nil =>
    intro acc r
    simp only [List.nil_append]
    rw [splitGo_cons_term hT, splitGo_cons_term hT acc []]
    rw [splitGo_nil, strip_nil]
    split <;> simp
  | cons c x ih =>
    intro acc r
    simp only [List.cons_append]
    by_cases hc : isTerm c = true
    · rw [splitGo_cons_term hc, splitGo_cons_term hc acc (x ++ [T]), ih [] r]
      split <;> simp
    · rw [splitGo_cons_nonterm (by simpa using hc),
        splitGo_cons_nonterm (by simpa using hc) acc (x ++ [T])]
      exact ih (acc ++ [c]) r

/-- A lone terminal mark splits to itself. -/
theorem splitGo_single_term {T : Char} (hT : isTerm T = true) :
    splitGo [] [T] = [[T]] := by
  have hstrip : strip [T] = [T] := by
    have h0 : ([] : List Char) ++ [T] = [T] := rfl
    rw [← h0, strip_append_single (isTerm_not_space hT)]
    rfl
  rw [splitGo_cons_term hT, splitGo_nil, strip_nil]
  simp [hstrip]

/-- C10 (confirmed). Two adjacent terminal marks make the second
mark a sentence of its own; on `"Wait.. go."` the segmentation is
`["Wait.", ".", "go."]`, the bare `"."` sentence has zero word tokens,
and `analyse_text` emits a `short_sentence` issue for it (sentence 2,
0 words). -/
theorem adjacent_terminal_bare_sentence {T1 T2 : Char} (u v : List Char)
    (h1 : isTerm T1 = true) (h2 : isTerm T2 = true) :
    [T2] ∈ split_sentencesL (u ++ T1 :: T2 :: v) ∧
    split_sentencesL "Wait.. go.".data = ["Wait.".data, ['.'], "go.".data] ∧
    findGroups ['.'] = [] ∧
    (⟨IssueKind.short_sentence, 2, shortMsg 2 0, ['.']⟩ : Issue) ∈ (analyse_textL "Wait.. go.".data).2 := by
  refine ⟨?_, by decide, by decide, by decide⟩
  obtain ⟨w, v2, hw⟩ := insertSpaces_adj h1 h2 v u
  unfold split_sentencesL
  rw [hw]
  have e1 : w ++ T1 :: T2 :: v2 = (w ++ [T1]) ++ T2 :: v2 := by simp
  rw [e1, splitGo_term h2 (w ++ [T1]) [] v2]
  have e2 : (w ++ [T1]) ++ [T2] = w ++ T1 :: [T2] := by simp
  rw [e2, splitGo_term h1 w [] [T2], splitGo_single_term h2]
  simp

/-- Closed witness for the general part of
`adjacent_terminal_bare_sentence`, at the decomposition
`"Wait" ++ '.' :: '.' :: " go."`. -/
theorem adjacent_terminal_bare_sentence_w :
    isTerm '.' = true ∧
    ['.'] ∈ split_sentencesL ("Wait".data ++ '.' :: '.' :: " go.".data) := by
  refine ⟨by decide, ?_⟩
  exact (adjacent_terminal_bare_sentence "Wait".data " go.".data (by decide) (by decide)).1

/-!
C9: input without terminal punctuation
-/

/-- The pre-pass `insertSpaces` is the identity on terminal-free text. -/
theorem insertSpaces_termFree :
    ∀ l : List Char, (∀ c ∈ l, isTerm c = false) → insertSpaces l = l := by
  intro l
  induction l with
  | nil => intro _; rfl
  | cons a l ih =>
    intro h
    cases l with
    | nil => rfl
    | cons b t =>
      rw [insertSpaces_cons2]
      simp [h a (by simp), ih (fun c hc => h c (by simp [hc]))]

/-- On terminal-free text the splitter accumulates everything and emits
the stripped whole (if non-empty). -/
theorem splitGo_termFree :
    ∀ l acc : List Char, (∀ c ∈ l, isTerm c = false) →
      splitGo acc l = if strip (acc ++ l) = [] then [] else [strip (acc ++ l)] := by
  intro l
  induction l with
  | nil => intro acc _; simp [splitGo]
  | cons c cs ih =>
    intro acc h
    simp only [splitGo, h c (by simp), if_false]
    rw [ih (acc ++ [c]) (fun d hd => h d (by simp [hd]))]
    simp

/-- C9 (confirmed). Input that is non-empty after trimming and
contains no terminal punctuation is treated as exactly one sentence —
the trimmed input — and `analyse_text` processes that one sentence
normally: its issues are exactly the per-sentence checks of sentence 1
(the opening key occurs once, so no repeated-start issue arises). -/
theorem no_terminal_single_sentence (l : List Char)
    (hterm : ∀ c ∈ l, isTerm c = false) (hne : strip l ≠ []) :
    split_sentencesL l = [strip l] ∧
    analyse_textL l = ([strip l], sentenceIssues 1 (strip l)) := by
  have hsplit : split_sentencesL l = [strip l] := by
    unfold split_sentencesL
    rw [insertSpaces_termFree l hterm, splitGo_termFree l [] hterm]
    simp [hne]
  refine ⟨hsplit, ?_⟩
  unfold analyse_textL
  rw [hsplit]
  simp only [List.enum, repeatedStartIssues]
  simp [List.count_cons]

/-- Closed witness for `no_terminal_single_sentence` at
`"hello world, no stops here"`. -/
theorem no_terminal_single_sentence_w :
    split_sentencesL "hello world, no stops here".data = [strip "hello world, no stops here".data] ∧
    analyse_textL "hello world, no stops here".data
      = ([strip "hello world, no stops here".data],
         sentenceIssues 1 (strip "hello world, no stops here".data)) :=
  no_terminal_single_sentence "hello world, no stops here".data (by decide) (by decide)

/-!
C8: segmentation is idempotent across a single-space rejoin

The output of the segmenter consists of stripped sentences; every sentence
except possibly the last is a terminal-free body followed by exactly one
terminal mark, and a terminal-free last sentence can only be the final
fragment.  Rejoining such a list with single spaces and re-splitting
recovers the list exactly.
-/

theorem mem_dropWhile {c : Char} (p : Char → Bool) :
    ∀ l : List Char, c ∈ List.dropWhile p l → c ∈ l := by
  intro l
  induction l with
  | nil => intro h; simp at h
  | cons a t ih =>
    intro h
    rw [List.dropWhile_cons] at h
    by_cases ha : p a = true
    · rw [if_pos ha] at h; exact List.mem_cons_of_mem a (ih h)
    · rw [if_neg ha] at h; exact h

theorem mem_strip {c : Char} {l : List Char} (h : c ∈ strip l) : c ∈ l := by
  unfold strip at h
  rw [List.mem_reverse] at h
  have h2 := mem_dropWhile pySpace _ h
  rw [List.mem_reverse] at h2
  exact mem_dropWhile pySpace _ h2

theorem strip_all_space {ws : List Char} (hws : ∀ c ∈ ws, pySpace c = true) :
    strip ws = [] := by
  rw [← List.append_nil ws, strip_space_pre hws, strip_nil]

/-- Cons preserves `GoodList` as soon as the head is a non-final
shape. -/
theorem GoodList.cons {S : List Char} {rest : List (List Char)}
    (hS : GoodNF S) (hrest : GoodList rest) : GoodList (S :: rest) := by
  cases rest with
  | nil => exact Or.inl hS
  | cons S2 t => exact ⟨hS, hrest⟩

/-- Every output of the splitter is well-formed, provided the
accumulator is terminal-free (the splitter only ever accumulates
non-terminal characters). -/
theorem splitGo_good :
    ∀ l acc : List Char, (∀ c ∈ acc, isTerm c = false) → GoodList (splitGo acc l) := by
  intro l
  induction l with
  | nil =>
    intro acc _
    rw [splitGo_nil]
    split
    · trivial
    · exact Or.inr ⟨by assumption, fun c hc => ‹∀ c ∈ acc, isTerm c = false› c (mem_strip hc),
        strip_idem acc⟩
  | cons c cs ih =>
    intro acc hacc
    by_cases hc : isTerm c = true
    · rw [splitGo_cons_term hc]
      split
      · exact ih [] (by simp)
      · refine GoodList.cons ?_ (ih [] (by simp))
        have hcs : pySpace c = false := isTerm_not_space hc
        refine ⟨List.dropWhile pySpace acc, c, ?_, hc, ?_, ?_⟩
        · rw [strip_append_single hcs]
        · exact fun d hd => hacc d (mem_dropWhile pySpace acc hd)
        · rw [strip_append_single hcs, strip_emission hcs]
    · rw [splitGo_cons_nonterm (by simpa using hc)]
      refine ih (acc ++ [c]) ?_
      intro d hd
      rcases List.mem_append.mp hd with h | h
      · exact hacc d h
      · simp only [List.mem_singleton] at h
        subst h
        simpa using hc

/-- Pushing a terminal-free prefix into the accumulator. -/
theorem splitGo_termfree_app :
    ∀ y acc l : List Char, (∀ c ∈ y, isTerm c = false) →
      splitGo acc (y ++ l) = splitGo (acc ++ y) l := by
  intro y
  induction y with
  | nil => intro acc l _; simp
  | cons a y ih =>
    intro acc l h
    rw [List.cons_append, splitGo_cons_nonterm (h a (by simp))]
    rw [ih (acc ++ [a]) l (fun c hc => h c (by simp [hc]))]
    simp

/-- Re-splitting a single-space join of a well-formed sentence list,
with an all-whitespace accumulator, recovers the list. -/
theorem splitGo_join :
    ∀ SS : List (List Char), GoodList SS →
      ∀ ws : List Char, (∀ c ∈ ws, pySpace c = true) → splitGo ws (joinSp SS) = SS := by
  intro SS
  induction SS with
  | nil =>
    intro _ ws hws
    show splitGo ws [] = []
    rw [splitGo_nil, strip_all_space hws]
    simp
  | cons S SS ih =>
    intro hgood ws hws
    cases SS with
    | nil =>
      rcases hgood with ⟨y, T, rfl, hT, hy, hstr⟩ | ⟨hne, htf, hstr⟩
      · show splitGo ws (y ++ [T]) = [y ++ [T]]
        rw [splitGo_termfree_app y ws [T] hy, splitGo_cons_term hT, splitGo_nil, strip_nil]
        have e : (ws ++ y) ++ [T] = ws ++ (y ++ [T]) := by simp
        rw [e, strip_space_pre hws, hstr]
        simp
      · show splitGo ws S = [S]
        rw [splitGo_termFree S ws htf, strip_space_pre hws, hstr]
        simp [hne]
    | cons S2 rest =>
      obtain ⟨hS, hrest⟩ := hgood
      obtain ⟨y, T, rfl, hT, hy, hstr⟩ := hS
      show splitGo ws ((y ++ [T]) ++ ' ' :: joinSp (S2 :: rest)) = _
      have e : (y ++ [T]) ++ ' ' :: joinSp (S2 :: rest)
          = y ++ (T :: ' ' :: joinSp (S2 :: rest)) := by simp
      rw [e, splitGo_termfree_app y ws _ hy, splitGo_cons_term hT]
      have e2 : (ws ++ y) ++ [T] = ws ++ (y ++ [T]) := by simp
      rw [e2, strip_space_pre hws, hstr]
      have hsp : isTerm ' ' = false := by decide
      rw [splitGo_cons_nonterm hsp]
      simp only [List.nil_append]
      rw [ih hrest [' '] (by intro c hc; simp at hc; subst hc; decide)]
      simp

theorem insertSpaces_noTL : ∀ l : List Char, noTLadj l → insertSpaces l = l := by
  intro l
  induction l with
  | nil => intro _; rfl
  | cons a t ih =>
    intro h
    cases t with
    | nil => rfl
    | cons b t2 =>
      obtain ⟨hab, ht⟩ := h
      have hcond : (isTerm a && isAsciiLetter b) = false := by
        by_cases ha : isTerm a = true
        · simp [ha, hab ha]
        · simp [(by simpa using ha : isTerm a = false)]
      rw [insertSpaces_cons2, hcond]
      simp only [Bool.false_eq_true, if_false]
      rw [ih ht]

theorem noTL_prepend :
    ∀ x l : List Char, (∀ c ∈ x, isTerm c = false) → noTLadj l → noTLadj (x ++ l) := by
  intro x
  induction x with
  | nil => intro l _ hl; simpa using hl
  | cons a x ih =>
    intro l h hl
    have hrest : noTLadj (x ++ l) := ih l (fun c hc => h c (by simp [hc])) hl
    rw [List.cons_append]
    cases hxl : x ++ l with
    | nil => trivial
    | cons b t =>
      rw [hxl] at hrest
      exact ⟨fun ha => absurd (h a (by simp)) (by simp [ha]), hrest⟩

theorem noTL_join : ∀ SS : List (List Char), GoodList SS → noTLadj (joinSp SS) := by
  intro SS
  induction SS with
  | nil => intro _; trivial
  | cons S SS ih =>
    intro hgood
    cases SS with
    | nil =>
      rcases hgood with ⟨y, T, rfl, _, hy, _⟩ | ⟨_, htf, _⟩
      · show noTLadj (y ++ [T])
        exact noTL_prepend y [T] hy trivial
      · show noTLadj S
        have := noTL_prepend S [] htf trivial
        simpa using this
    | cons S2 rest =>
      obtain ⟨⟨y, T, rfl, hT, hy, _⟩, hrest⟩ := hgood
      show noTLadj ((y ++ [T]) ++ ' ' :: joinSp (S2 :: rest))
      have e : (y ++ [T]) ++ ' ' :: joinSp (S2 :: rest)
          = y ++ (T :: ' ' :: joinSp (S2 :: rest)) := by simp
      rw [e]
      refine noTL_prepend y _ hy ?_
      refine ⟨fun _ => by decide, ?_⟩
      cases hJ : joinSp (S2 :: rest) with
      | nil => trivial
      | cons j t =>
        have hj := ih hrest
        rw [hJ] at hj
        exact ⟨fun hsp => absurd hsp (by decide), hj⟩

/-- C8 (confirmed). Joining the output of the segmenter with single
spaces and segmenting again returns the same sentence list — in
particular a sentence sequence of the same length. -/
theorem segmentation_rejoin (l : List Char) :
    split_sentencesL (joinSp (split_sentencesL l)) = split_sentencesL l ∧
    (split_sentencesL (joinSp (split_sentencesL l))).length
      = (split_sentencesL l).length := by
  have hgood : GoodList (split_sentencesL l) := splitGo_good (insertSpaces l) [] (by simp)
  have heq : split_sentencesL (joinSp (split_sentencesL l)) = split_sentencesL l := by
    calc split_sentencesL (joinSp (split_sentencesL l))
        = splitGo [] (insertSpaces (joinSp (split_sentencesL l))) := rfl
      _ = splitGo [] (joinSp (split_sentencesL l)) := by
            rw [insertSpaces_noTL _ (noTL_join _ hgood)]
      _ = split_sentencesL l := splitGo_join _ hgood [] (by simp)
  exact ⟨heq, by rw [heq]⟩

/-!
Matching-engine lemmas: decomposition and fuel irrelevance
-/

theorem prefMatch_split (ci : Bool) :
    ∀ (k l : List Char) (p : List Char × List Char), prefMatch ci k l = some p →
      l = p.1 ++ p.2 ∧ p.1.length = k.length := by
  intro k
  induction k with
  | nil =>
    intro l p h
    injection h with h
    rw [← h]
    exact ⟨rfl, rfl⟩
  | cons a k ih =>
    intro l p h
    cases l with
    | nil => exact Option.noConfusion h
    | cons c cs =>
      rw [prefMatch] at h
      by_cases hc : charEq ci a c = true
      · rw [if_pos hc] at h
        cases hm : prefMatch ci k cs with
        | none => rw [hm] at h; simp at h
        | some q =>
          rw [hm] at h
          rw [show Option.map (fun p => (c :: p.1, p.2)) (some q)
              = some (c :: q.1, q.2) from rfl] at h
          injection h with h
          obtain ⟨hsplit, hlen⟩ := ih cs q hm
          rw [← h]
          exact ⟨by rw [hsplit]; rfl, by simp [hlen]⟩
      · rw [if_neg hc] at h
        simp at h

/-- Case-sensitive matching consumes exactly the key. -/
theorem prefMatch_exact :
    ∀ (k l : List Char) (p : List Char × List Char), prefMatch false k l = some p →
      p.1 = k := by
  intro k
  induction k with
  | nil =>
    intro l p h
    injection h with h
    rw [← h]
  | cons a k ih =>
    intro l p h
    cases l with
    | nil => exact Option.noConfusion h
    | cons c cs =>
      rw [prefMatch] at h
      by_cases hc : charEq false a c = true
      case pos =>
        rw [if_pos hc] at h
        cases hm : prefMatch false k cs with
        | none => rw [hm] at h; simp at h
        | some q =>
          rw [hm] at h
          rw [show Option.map (fun p => (c :: p.1, p.2)) (some q)
              = some (c :: q.1, q.2) from rfl] at h
          injection h with h
          have hac : a = c := by simpa [charEq] using hc
          rw [← h]
          simp [ih cs q hm, hac]
      case neg =>
        rw [if_neg hc] at h
        simp at h

theorem tryTable_mem (ci : Bool) :
    ∀ (ks : List (List Char)) (l : List Char) (p : List Char × List Char),
      tryTable ci ks l = some p →
      ∃ k ∈ ks, prefMatch ci k l = some p ∧ boundaryOk p.2 = true := by
  intro ks
  induction ks with
  | nil => intro l p h; simp [tryTable] at h
  | cons k ks ih =>
    intro l p h
    rw [tryTable] at h
    cases hm : prefMatch ci k l with
    | none =>
      simp only [hm] at h
      obtain ⟨k2, hk2, hp⟩ := ih l p h
      exact ⟨k2, by simp [hk2], hp⟩
    | some q =>
      simp only [hm] at h
      by_cases hb : boundaryOk q.2 = true
      · rw [if_pos hb] at h
        cases h
        exact ⟨k, by simp, hm, hb⟩
      · rw [if_neg hb] at h
        obtain ⟨k2, hk2, hp⟩ := ih l p h
        exact ⟨k2, by simp [hk2], hp⟩

theorem tryTable_none (ci : Bool) :
    ∀ (ks : List (List Char)) (l : List Char),
      tryTable ci ks l = none ↔
      (∀ k ∈ ks, ∀ p, prefMatch ci k l = some p → boundaryOk p.2 = false) := by
  intro ks
  induction ks with
  | nil => intro l; simp [tryTable]
  | cons k ks ih =>
    intro l
    rw [tryTable]
    constructor
    · intro h k2 hk2 p hp
      cases hm : prefMatch ci k l with
      | none =>
        simp only [hm] at h
        rcases List.mem_cons.mp hk2 with rfl | hmem
        · rw [hm] at hp; exact absurd hp (by simp)
        · exact (ih l).mp h k2 hmem p hp
      | some q =>
        simp only [hm] at h
        by_cases hb : boundaryOk q.2 = true
        · rw [if_pos hb] at h; exact absurd h (by simp)
        · rw [if_neg hb] at h
          rcases List.mem_cons.mp hk2 with rfl | hmem
          · rw [hm] at hp; cases hp; simpa using hb
          · exact (ih l).mp h k2 hmem p hp
    · intro h
      cases hm : prefMatch ci k l with
      | none =>
        simp only [hm]
        exact (ih l).mpr (fun k2 hk2 p hp => h k2 (by simp [hk2]) p hp)
      | some q =>
        simp only [hm]
        rw [if_neg (by simp [h k (by simp) q hm])]
        exact (ih l).mpr (fun k2 hk2 p hp => h k2 (by simp [hk2]) p hp)

/-- A successful table match consumes at least one character when all
keys are non-empty. -/
theorem tryTable_shrink {ci : Bool} {ks : List (List Char)} (hks : ∀ k ∈ ks, k ≠ [])
    {l : List Char} {p : List Char × List Char} (h : tryTable ci ks l = some p) :
    p.2.length < l.length ∧ p.1 ≠ [] ∧ l = p.1 ++ p.2 := by
  obtain ⟨k, hk, hm, _⟩ := tryTable_mem ci ks l p h
  obtain ⟨hsplit, hlen⟩ := prefMatch_split ci k l p hm
  have hk1 : p.1 ≠ [] := by
    intro hnil
    apply hks k hk
    rw [hnil] at hlen
    exact List.length_eq_zero.mp hlen.symm
  refine ⟨?_, hk1, hsplit⟩
  rw [hsplit, List.length_append]
  have : 0 < p.1.length := List.length_pos.mpr hk1
  omega

theorem scanGo_nil (ci : Bool) (ks : List (List Char)) (f : Nat) (b : Bool) :
    scanGo ci ks f b [] = [] := by
  cases f <;> rfl

theorem subGo_nil (ci : Bool) (ks : List (List Char)) (rf : List Char → List Char)
    (f : Nat) (b : Bool) : subGo ci ks rf f b [] = [] := by
  cases f <;> rfl

theorem scanGo_fuel {ci : Bool} {ks : List (List Char)} (hks : ∀ k ∈ ks, k ≠ []) :
    ∀ (f g : Nat) (b : Bool) (l : List Char), l.length ≤ f → l.length ≤ g →
      scanGo ci ks f b l = scanGo ci ks g b l := by
  intro f
  induction f with
  | zero =>
    intro g b l hf _
    have hl : l = [] := List.length_eq_zero.mp (Nat.le_zero.mp hf)
    subst hl
    rw [scanGo_nil, scanGo_nil]
  | succ f ih =>
    intro g b l hf hg
    cases l with
    | nil => rw [scanGo_nil, scanGo_nil]
    | cons c cs =>
      cases g with
      | zero => simp at hg
      | succ g =>
        rcases hM : (if b then none else tryTable ci ks (c :: cs)) with _ | p
        · show scanGo ci ks (f + 1) b (c :: cs) = scanGo ci ks (g + 1) b (c :: cs)
          simp only [scanGo, hM]
          exact ih g (isWordChar c) cs (by simpa using hf) (by simpa using hg)
        · show scanGo ci ks (f + 1) b (c :: cs) = scanGo ci ks (g + 1) b (c :: cs)
          simp only [scanGo, hM]
          have hp : tryTable ci ks (c :: cs) = some p := by
            cases b
            · simpa using hM
            · simp at hM
          have hlen := (tryTable_shrink hks hp).1
          simp only [List.length_cons] at hf hg hlen
          rw [ih g (lastIsWord p.1) p.2 (by omega) (by omega)]

theorem subGo_fuel {ci : Bool} {ks : List (List Char)} {rf : List Char → List Char}
    (hks : ∀ k ∈ ks, k ≠ []) :
    ∀ (f g : Nat) (b : Bool) (l : List Char), l.length ≤ f → l.length ≤ g →
      subGo ci ks rf f b l = subGo ci ks rf g b l := by
  intro f
  induction f with
  | zero =>
    intro g b l hf _
    have hl : l = [] := List.length_eq_zero.mp (Nat.le_zero.mp hf)
    subst hl
    rw [subGo_nil, subGo_nil]
  | succ f ih =>
    intro g b l hf hg
    cases l with
    | nil => rw [subGo_nil, subGo_nil]
    | cons c cs =>
      cases g with
      | zero => simp at hg
      | succ g =>
        rcases hM : (if b then none else tryTable ci ks (c :: cs)) with _ | p
        · show subGo ci ks rf (f + 1) b (c :: cs) = subGo ci ks rf (g + 1) b (c :: cs)
          simp only [subGo, hM]
          rw [ih g (isWordChar c) cs (by simpa using hf) (by simpa using hg)]
        · show subGo ci ks rf (f + 1) b (c :: cs) = subGo ci ks rf (g + 1) b (c :: cs)
          simp only [subGo, hM]
          have hp : tryTable ci ks (c :: cs) = some p := by
            cases b
            · simpa using hM
            · simp at hM
          have hlen := (tryTable_shrink hks hp).1
          simp only [List.length_cons] at hf hg hlen
          rw [ih g (lastIsWord p.1) p.2 (by omega) (by omega)]

theorem scanAll_eq_scanF (ci : Bool) (ks : List (List Char)) (l : List Char) :
    scanAll ci ks l = scanF ci ks false l := rfl

theorem subAll_eq_subF (ci : Bool) (ks : List (List Char)) (rf : List Char → List Char)
    (l : List Char) : subAll ci ks rf l = subF ci ks rf false l := rfl

theorem scanF_nil (ci : Bool) (ks : List (List Char)) (b : Bool) :
    scanF ci ks b [] = [] := rfl

theorem subF_nil (ci : Bool) (ks : List (List Char)) (rf : List Char → List Char)
    (b : Bool) : subF ci ks rf b [] = [] := rfl

theorem scanF_step_none {ci : Bool} {ks : List (List Char)} {b : Bool} {c : Char}
    {cs : List Char} (h : (if b then none else tryTable ci ks (c :: cs)) = none) :
    scanF ci ks b (c :: cs) = scanF ci ks (isWordChar c) cs := by
  show scanGo ci ks (cs.length + 1) b (c :: cs) = _
  simp only [scanGo, h]
  rfl

theorem scanF_step_some {ci : Bool} {ks : List (List Char)} (hks : ∀ k ∈ ks, k ≠ [])
    {c : Char} {cs : List Char} {p : List Char × List Char}
    (h : tryTable ci ks (c :: cs) = some p) :
    scanF ci ks false (c :: cs) = p.1 :: scanF ci ks (lastIsWord p.1) p.2 := by
  show scanGo ci ks (cs.length + 1) false (c :: cs) = _
  have hlen := (tryTable_shrink hks h).1
  simp only [List.length_cons] at hlen
  simp only [scanGo, Bool.false_eq_true, if_false, h]
  rw [scanGo_fuel hks cs.length p.2.length (lastIsWord p.1) p.2 (by omega) (by omega)]
  rfl

theorem subF_step_none {ci : Bool} {ks : List (List Char)} {rf : List Char → List Char}
    {b : Bool} {c : Char} {cs : List Char}
    (h : (if b then none else tryTable ci ks (c :: cs)) = none) :
    subF ci ks rf b (c :: cs) = c :: subF ci ks rf (isWordChar c) cs := by
  show subGo ci ks rf (cs.length + 1) b (c :: cs) = _
  simp only [subGo, h]
  rfl

theorem subF_step_some {ci : Bool} {ks : List (List Char)} {rf : List Char → List Char}
    (hks : ∀ k ∈ ks, k ≠ []) {c : Char} {cs : List Char} {p : List Char × List Char}
    (h : tryTable ci ks (c :: cs) = some p) :
    subF ci ks rf false (c :: cs) = rf p.1 ++ subF ci ks rf (lastIsWord p.1) p.2 := by
  show subGo ci ks rf (cs.length + 1) false (c :: cs) = _
  have hlen := (tryTable_shrink hks h).1
  simp only [List.length_cons] at hlen
  simp only [subGo, Bool.false_eq_true, if_false, h]
  rw [subGo_fuel hks cs.length p.2.length (lastIsWord p.1) p.2 (by omega) (by omega)]
  rfl

/-!
C5: first-person matching flags exactly the six literal forms

`fpOcc` is the specification-shaped definition: it walks every position
of the text, and at each position records the (unique) one of the six
literal forms `I, we, We, our, Our, us` that occurs there as a whole
word — the previous character must not be a word character, and
neither may the following one.  The regex scanner skips past each
match, but since the interior of a match never starts a whole word,
the two agree.
-/

theorem fpForms_nonempty : ∀ k ∈ fpForms, k ≠ [] := by decide

theorem fpForms_wordy : ∀ k ∈ fpForms, ∀ c ∈ k, isWordChar c = true := by decide

theorem lastIsWord_of_all {m : List Char} (hne : m ≠ [])
    (hw : ∀ c ∈ m, isWordChar c = true) : lastIsWord m = true := by
  unfold lastIsWord
  rw [List.getLast?_eq_getLast m hne]
  exact hw _ (List.getLast_mem hne)

/-- Walking the interior of an all-word-character match emits
nothing. -/
theorem fpOcc_allword : ∀ (m r : List Char), (∀ c ∈ m, isWordChar c = true) →
    fpOcc true (m ++ r) = fpOcc true r := by
  intro m
  induction m with
  | nil => intro r _; rfl
  | cons d m ih =>
    intro r h
    show fpOcc true (d :: (m ++ r)) = _
    rw [fpOcc]
    simp only [if_true, List.nil_append]
    rw [h d (by simp), ih r (fun c hc => h c (by simp [hc]))]

/-- The scanner agrees with the position-by-position specification. -/
theorem fp_scan_eq_occ : ∀ (n : Nat) (l : List Char) (b : Bool), l.length ≤ n →
    scanF false fpForms b l = fpOcc b l := by
  intro n
  induction n with
  | zero =>
    intro l b h
    have hl : l = [] := List.length_eq_zero.mp (Nat.le_zero.mp h)
    subst hl
    rfl
  | succ n ih =>
    intro l b h
    cases l with
    | nil => rfl
    | cons c cs =>
      cases b with
      | true =>
        rw [scanF_step_none (by simp), fpOcc]
        simp only [if_true, List.nil_append]
        exact ih cs (isWordChar c) (by simpa using h)
      | false =>
        rcases hM : tryTable false fpForms (c :: cs) with _ | p
        · rw [scanF_step_none (by simp [hM]), fpOcc]
          simp only [Bool.false_eq_true, if_false, hM, List.nil_append]
          exact ih cs (isWordChar c) (by simpa using h)
        · rw [scanF_step_some fpForms_nonempty hM, fpOcc]
          simp only [Bool.false_eq_true, if_false, hM]
          obtain ⟨k, hk, hm, _⟩ := tryTable_mem false fpForms (c :: cs) p hM
          have hexact : p.1 = k := prefMatch_exact k (c :: cs) p hm
          obtain ⟨hsplit, _⟩ := prefMatch_split false k (c :: cs) p hm
          have hwords : ∀ d ∈ p.1, isWordChar d = true := by
            rw [hexact]; exact fpForms_wordy k hk
          have hne : p.1 ≠ [] := by
            rw [hexact]; exact fpForms_nonempty k hk
          have hlast : lastIsWord p.1 = true := lastIsWord_of_all hne hwords
          obtain ⟨m, hp1, hcs⟩ : ∃ m, p.1 = c :: m ∧ cs = m ++ p.2 := by
            cases hp : p.1 with
            | nil => exact absurd hp hne
            | cons c0 m =>
              rw [hp] at hsplit
              rw [List.cons_append] at hsplit
              injection hsplit with h1 h2
              exact ⟨m, by rw [h1], h2⟩
          have hcw : isWordChar c = true := hwords c (by rw [hp1]; simp)
          rw [hlast, hcs, hcw]
          rw [fpOcc_allword m p.2 (fun d hd => hwords d (by rw [hp1]; simp [hd]))]
          have hlen2 : p.2.length ≤ n := by
            have := (tryTable_shrink fpForms_nonempty hM).1
            simp only [List.length_cons] at this h
            omega
          rw [ih p.2 true hlen2]
          simp

/-- C5 (confirmed). First-person matching flags exactly the literal
whole-word forms `I, we, We, our, Our, us`: the scanner of the analyser
equals the position-by-position whole-word-occurrence specification,
the per-sentence `first_person` issues are exactly one per occurrence,
and the other casings (`i`, `Us`, `OUR`) are never flagged. -/
theorem first_person_exact_forms :
    (∀ s : List Char, scanAll false fpForms s = fpOcc false s) ∧
    (∀ (idx : Nat) (s : List Char),
      (sentenceIssues idx s).filter (fun i => i.kind == IssueKind.first_person)
        = (fpOcc false s).map
            (fun m => ⟨IssueKind.first_person, idx, fpMsg m idx, s⟩)) ∧
    scanAll false fpForms "i am on my own".data = [] ∧
    scanAll false fpForms "Us and OUR folk".data = [] ∧
    scanAll false fpForms "I we We our Our us".data
      = ["I".data, "we".data, "We".data, "our".data, "Our".data, "us".data] := by
  have hmain : ∀ s : List Char, scanAll false fpForms s = fpOcc false s := by
    intro s
    rw [scanAll_eq_scanF]
    exact fp_scan_eq_occ s.length s false le_rfl
  refine ⟨hmain, ?_, by decide, by decide, by decide⟩
  intro idx s
  have hc1 : ((fun (i : Issue) => i.kind == IssueKind.first_person) ∘
      (fun m => (⟨IssueKind.contraction, idx, contrMsg m idx, s⟩ : Issue)))
      = fun _ => false := rfl
  have hc2 : ((fun (i : Issue) => i.kind == IssueKind.first_person) ∘
      (fun m => (⟨IssueKind.informal, idx, infMsg m idx, s⟩ : Issue)))
      = fun _ => false := rfl
  have hc3 : ((fun (i : Issue) => i.kind == IssueKind.first_person) ∘
      (fun m => (⟨IssueKind.first_person, idx, fpMsg m idx, s⟩ : Issue)))
      = fun _ => true := rfl
  unfold sentenceIssues
  rw [← hmain s]
  simp only [List.filter_append, List.filter_map, hc1, hc2, hc3,
    List.filter_false, List.filter_true, List.map_nil, List.nil_append]
  split
  · simp [List.filter,
      show (IssueKind.long_sentence == IssueKind.first_person) = false from rfl]
  · split
    · simp [List.filter,
        show (IssueKind.short_sentence == IssueKind.first_person) = false from rfl]
    · simp [List.filter]

/-!
C6: the humaniser with a stubbed random source
-/

/-- With every draw at or above the 0.35 threshold, `academic_tone`
returns the plain (connector-free) tone and leaves the float stream
unchanged. -/
theorem academic_tone_stub {g : RNG} (h : ∀ i, (35 : ℚ) / 100 ≤ g.floats i)
    (s : List Char) (idx total : Nat) :
    (academic_tone g s idx total).1 = plainTone s ∧
    (academic_tone g s idx total).2.floats = g.floats := by
  unfold academic_tone
  by_cases hidx : 0 < idx ∧ idx < total
  · have hr : ¬ ((randomRandom g).1 < (35 : ℚ) / 100) := not_lt.mpr (h g.fpos)
    simp only [hidx, and_self, if_true, hr, if_false, plainTone]
    refine ⟨?_, ?_⟩ <;> trivial
  · simp only [hidx, if_false, plainTone]
    refine ⟨?_, ?_⟩ <;> trivial

/-- The sentence loop under the stub maps every sentence to its plain
tone. -/
theorem humaniseGo_stub :
    ∀ (ss : List (List Char)) (total : Nat) (g : RNG) (idx : Nat),
      (∀ i, (35 : ℚ) / 100 ≤ g.floats i) →
      (humaniseGo total g idx ss).1 = ss.map plainTone := by
  intro ss
  induction ss with
  | nil => intro total g idx _; rfl
  | cons s ss ih =>
    intro total g idx h
    obtain ⟨h1, h2⟩ := academic_tone_stub h s idx total
    show ((academic_tone g s idx total).1 ::
        (humaniseGo total (academic_tone g s idx total).2 (idx + 1) ss).1) = _
    rw [h1, ih total (academic_tone g s idx total).2 (idx + 1) (by rw [h2]; exact h)]
    rfl

/-- C6 (confirmed). With the random source stubbed so every draw is
at least 0.35, the humaniser inserts no connector: its output is the
column-wrapped single-space join of the light-rephrased sentences, the
sentence sequence being that of the segmenter on the collapsed, trimmed
input.  Moreover — for any random source — `academic_tone` never
prepends a connector to the very first sentence (index 0). -/
theorem humaniser_stub_no_connectors (g : RNG) (text : List Char) (wrap : Nat)
    (h : ∀ i, (35 : ℚ) / 100 ≤ g.floats i) :
    humanise_uk_academicL g wrap text
      = fill wrap (joinSp
          ((split_sentencesL (strip (collapseGo false text))).map plainTone)) ∧
    (∀ (g2 : RNG) (s : List Char) (total : Nat),
      (academic_tone g2 s 0 total).1 = plainTone s) := by
  constructor
  · unfold humanise_uk_academicL
    by_cases ht : (strip (collapseGo false text)).isEmpty
    · simp only [ht, if_true]
      have hnil : strip (collapseGo false text) = [] := by
        simpa using ht
      rw [hnil]
      rfl
    · simp only [ht, Bool.false_eq_true, if_false]
      rw [humaniseGo_stub _ _ g 0 h]
  · intro g2 s total
    unfold academic_tone
    have : ¬ (0 < 0 ∧ 0 < total) := by simp
    simp only [this, if_false, plainTone]

/-- Closed witness for `humaniser_stub_no_connectors`: a constant-1
float stream on a concrete two-sentence text. -/
theorem humaniser_stub_no_connectors_w :
    humanise_uk_academicL ⟨fun _ => 1, fun _ => 0, 0, 0⟩ 90 "Hello there. More text here.".data
      = fill 90 (joinSp
          ((split_sentencesL (strip (collapseGo false "Hello there. More text here.".data))).map
            plainTone)) ∧
    humanise_uk_academicL ⟨fun _ => 1, fun _ => 0, 0, 0⟩ 90 "Hello there. More text here.".data
      = "Hello there. More text here.".data := by
  have hstub : ∀ i, (35 : ℚ) / 100 ≤ (⟨fun _ => 1, fun _ => 0, 0, 0⟩ : RNG).floats i := by
    intro i
    norm_num
  refine ⟨(humaniser_stub_no_connectors _ _ 90 hstub).1, ?_⟩
  rw [(humaniser_stub_no_connectors _ _ 90 hstub).1]
  decide

/-!
C7 groundwork: the boolean hit view of the matcher
-/

theorem isPrefixOf_cons_cons (a b : Char) (as bs : List Char) :
    (a :: as).isPrefixOf (b :: bs) = (a == b && as.isPrefixOf bs) := rfl

theorem isPrefixOf_nil_left (l : List Char) : ([] : List Char).isPrefixOf l = true := by
  cases l <;> rfl

theorem prefMatch_false_eq :
    ∀ k l : List Char, prefMatch false k l =
      if k.isPrefixOf l then some (k, l.drop k.length) else none := by
  intro k
  induction k with
  | nil => intro l; simp [prefMatch, List.isPrefixOf]
  | cons a k ih =>
    intro l
    cases l with
    | nil =>
      show none = if (a :: k).isPrefixOf [] then _ else none
      rfl
    | cons c cs =>
      rw [prefMatch, isPrefixOf_cons_cons]
      by_cases hac : a = c
      · subst hac
        have hce : charEq false a a = true := by simp [charEq]
        rw [if_pos hce, ih cs]
        by_cases hp : k.isPrefixOf cs = true
        · rw [if_pos hp]
          simp [hp]
        · rw [if_neg hp]
          simp [(Bool.not_eq_true _).mp hp]
      · have hce : charEq false a c = false := by
          simp [charEq]
          exact hac
        rw [hce]
        simp only [Bool.false_eq_true, if_false]
        have : (a == c) = false := by simp [hac]
        rw [this]
        simp

/-- The alternation fails exactly when the whole-word hit of every key
fails. -/
theorem tryTable_false_none_iff (ks : List (List Char)) (l : List Char) :
    tryTable false ks l = none ↔ ∀ k ∈ ks, hit k l = false := by
  rw [tryTable_none]
  constructor
  · intro h k hk
    unfold hit
    by_cases hp : k.isPrefixOf l = true
    · have := h k hk (k, l.drop k.length) (by rw [prefMatch_false_eq, if_pos hp])
      simp [this]
    · simp [(Bool.not_eq_true _).mp hp]
  · intro h k hk p hp
    rw [prefMatch_false_eq] at hp
    by_cases hpre : k.isPrefixOf l = true
    · rw [if_pos hpre] at hp
      injection hp with hp
      have := h k hk
      unfold hit at this
      rw [hpre] at this
      simp only [Bool.true_and] at this
      rw [← hp]
      exact this
    · rw [if_neg hpre] at hp
      exact absurd hp (by simp)

theorem tryTable_cons_hit_false {k l : List Char} (h : hit k l = false)
    (ks : List (List Char)) : tryTable false (k :: ks) l = tryTable false ks l := by
  rw [tryTable, prefMatch_false_eq]
  unfold hit at h
  by_cases hp : k.isPrefixOf l = true
  · rw [if_pos hp]
    rw [hp, Bool.true_and] at h
    simp [h]
  · rw [if_neg hp]

theorem tryTable_cons_hit_true {k l : List Char} (h : hit k l = true)
    (ks : List (List Char)) :
    tryTable false (k :: ks) l = some (k, l.drop k.length) := by
  rw [tryTable, prefMatch_false_eq]
  unfold hit at h
  obtain ⟨h1, h2⟩ := Bool.and_eq_true_iff.mp h
  rw [if_pos h1]
  simp [h2]

theorem boundaryOk_append {x : List Char} (A : List Char) (hx : x ≠ []) :
    boundaryOk (x ++ A) = boundaryOk x := by
  cases x with
  | nil => exact absurd rfl hx
  | cons c cs => rfl

theorem isPrefixOf_confine :
    ∀ (k seg A B : List Char), k.length ≤ seg.length →
      k.isPrefixOf (seg ++ A) = k.isPrefixOf (seg ++ B) := by
  intro k
  induction k with
  | nil => intro seg A B _; rw [isPrefixOf_nil_left, isPrefixOf_nil_left]
  | cons a k ih =>
    intro seg A B h
    cases seg with
    | nil => simp at h
    | cons c cs =>
      rw [List.cons_append, List.cons_append, isPrefixOf_cons_cons, isPrefixOf_cons_cons]
      rw [ih cs A B (by simpa using h)]

theorem isPrefixOf_append_self (k A : List Char) : k.isPrefixOf (k ++ A) = true := by
  induction k with
  | nil => rw [isPrefixOf_nil_left]
  | cons a k ih => rw [List.cons_append, isPrefixOf_cons_cons, ih]; simp

/-- A key strictly shorter than a segment hits `seg ++ A` exactly as it
hits `seg ++ B`: both the prefix and the boundary character lie inside
the segment. -/
theorem hit_confine {k seg : List Char} (h : k.length < seg.length) (A B : List Char) :
    hit k (seg ++ A) = hit k (seg ++ B) := by
  unfold hit
  rw [isPrefixOf_confine k seg A B (Nat.le_of_lt h)]
  rw [List.drop_append_of_le_length (Nat.le_of_lt h),
    List.drop_append_of_le_length (Nat.le_of_lt h)]
  have hne : seg.drop k.length ≠ [] := by
    intro hc
    have := List.length_drop k.length seg ▸ congrArg List.length hc
    simp at this
    omega
  rw [boundaryOk_append A hne, boundaryOk_append B hne]

/-- A key as long as the segment can only hit `seg ++ A` if it equals
the segment; its trailing boundary is then the head of `A`. -/
theorem hit_eq_length {k seg : List Char} (h : k.length = seg.length) (A : List Char) :
    hit k (seg ++ A) = (decide (k = seg) && boundaryOk A) := by
  unfold hit
  by_cases hk : k = seg
  · subst hk
    rw [isPrefixOf_append_self, List.drop_left]
    simp
  · have hp : k.isPrefixOf (seg ++ A) = false := by
      by_contra hc
      have hpp : k <+: seg ++ A := List.isPrefixOf_iff_prefix.mp ((Bool.not_eq_false _).mp hc)
      obtain ⟨u, hu⟩ := hpp
      have : k = seg := by
        have h1 : (k ++ u).take k.length = (seg ++ A).take seg.length := by rw [hu, h]
        rw [List.take_append_of_le_length le_rfl, List.take_append_of_le_length le_rfl] at h1
        simpa using h1
      exact hk this
    rw [hp]
    simp [hk]

/-- A key longer than the segment that hits `seg ++ A` splits as the
segment plus a tail hitting `A`. -/
theorem hit_long_split {k seg A : List Char} (hlen : seg.length < k.length)
    (h : hit k (seg ++ A) = true) :
    ∃ tail, k = seg ++ tail ∧ tail ≠ [] ∧ hit tail A = true := by
  unfold hit at h
  obtain ⟨h1, h2⟩ := Bool.and_eq_true_iff.mp h
  obtain ⟨u, hu⟩ := List.isPrefixOf_iff_prefix.mp h1
  have hseg : seg = k.take seg.length := by
    have h3 : (seg ++ A).take seg.length = (k ++ u).take seg.length := by rw [hu]
    rw [List.take_append_of_le_length le_rfl,
      List.take_append_of_le_length (Nat.le_of_lt hlen)] at h3
    simpa using h3
  have hkk : k = seg ++ k.drop seg.length := by
    nth_rewrite 1 [hseg]
    exact (List.take_append_drop seg.length k).symm
  refine ⟨k.drop seg.length, hkk, ?_, ?_⟩
  · intro hc
    have := congrArg List.length hc
    simp at this
    omega
  · have htail : (k.take seg.length ++ k.drop seg.length) ++ u = seg ++ A := by
      simp [hu]
    rw [← hseg] at htail
    rw [List.append_assoc] at htail
    have hA : k.drop seg.length ++ u = A := List.append_cancel_left htail
    unfold hit
    refine Bool.and_eq_true_iff.mpr ⟨?_, ?_⟩
    · rw [← hA]
      exact isPrefixOf_append_self _ _
    · have hd : A.drop (k.drop seg.length).length = u := by
        rw [← hA, List.drop_left]
      rw [hd]
      have h4 : (seg ++ A).drop k.length = u := by
        rw [← hu, List.drop_left]
      rw [← h4]
      exact h2

/-!
C7: correctness of the symbolic segment checker
-/

theorem hit_cons_cons (a : Char) (k x : List Char) : hit (a :: k) (a :: x) = hit k x := by
  unfold hit
  rw [isPrefixOf_cons_cons]
  simp [List.drop_succ_cons]

theorem hit_cons_ne {a c : Char} (hne : a ≠ c) (k x : List Char) :
    hit (a :: k) (c :: x) = false := by
  unfold hit
  rw [isPrefixOf_cons_cons]
  simp [hne]

theorem keyCheck_none_sound :
    ∀ (k seg : List Char), keyCheck k seg = some none →
      ∀ Y, boundaryOk Y = true → hit k (seg ++ Y) = false := by
  intro k
  induction k with
  | nil =>
    intro seg h Y hb
    cases seg with
    | nil => simp [keyCheck] at h
    | cons d ds =>
      rw [keyCheck] at h
      by_cases hd : isWordChar d = true
      · unfold hit
        rw [isPrefixOf_nil_left]
        simp [boundaryOk, hd]
      · rw [if_neg hd] at h
        exact absurd h (by simp)
  | cons a k ih =>
    intro seg h Y hb
    cases seg with
    | nil =>
      rw [keyCheck] at h
      by_cases ha : isWordChar a = true
      · cases Y with
        | nil => rfl
        | cons y ys =>
          have hy : isWordChar y = false := by simpa [boundaryOk] using hb
          have hay : a ≠ y := by
            intro hc
            rw [hc, hy] at ha
            exact Bool.noConfusion ha
          rw [List.nil_append]
          exact hit_cons_ne hay k ys
      · rw [if_neg ha] at h
        exact absurd h (by simp)
    | cons c cs =>
      rw [keyCheck] at h
      by_cases hac : a = c
      · rw [if_pos hac] at h
        subst hac
        rw [List.cons_append, hit_cons_cons]
        exact ih cs h Y hb
      · rw [if_neg hac] at h
        rw [List.cons_append]
        exact hit_cons_ne hac k (cs ++ Y)

theorem keyCheck_match_sound :
    ∀ (k seg rest : List Char), keyCheck k seg = some (some rest) →
      seg = k ++ rest ∧ boundaryOk rest = true := by
  intro k
  induction k with
  | nil =>
    intro seg rest h
    cases seg with
    | nil =>
      rw [keyCheck] at h
      injection h with h
      injection h with h
      exact ⟨by rw [← h]; rfl, by rw [← h]; rfl⟩
    | cons d ds =>
      rw [keyCheck] at h
      by_cases hd : isWordChar d = true
      · rw [if_pos hd] at h
        exact absurd h (by simp)
      · rw [if_neg hd] at h
        injection h with h
        injection h with h
        refine ⟨by rw [← h]; rfl, ?_⟩
        rw [← h]
        simpa [boundaryOk] using (Bool.not_eq_true _).mp hd
  | cons a k ih =>
    intro seg rest h
    cases seg with
    | nil =>
      rw [keyCheck] at h
      by_cases ha : isWordChar a = true
      · rw [if_pos ha] at h; exact absurd h (by simp)
      · rw [if_neg ha] at h; exact absurd h (by simp)
    | cons c cs =>
      rw [keyCheck] at h
      by_cases hac : a = c
      · rw [if_pos hac] at h
        obtain ⟨h1, h2⟩ := ih cs rest h
        subst hac
        exact ⟨by rw [List.cons_append, ← h1], h2⟩
      · rw [if_neg hac] at h
        exact absurd h (by simp)

theorem tableCheck_none_sound :
    ∀ (ks : List (List Char)) (seg : List Char), tableCheck ks seg = some none →
      ∀ Y, boundaryOk Y = true → tryTable false ks (seg ++ Y) = none := by
  intro ks
  induction ks with
  | nil => intro seg _ Y _; rfl
  | cons k ks ih =>
    intro seg h Y hb
    rw [tableCheck] at h
    cases hkc : keyCheck k seg with
    | none => rw [hkc] at h; exact absurd h (by simp)
    | some o =>
      cases o with
      | none =>
        simp only [hkc] at h
        rw [tryTable_cons_hit_false (keyCheck_none_sound k seg hkc Y hb)]
        exact ih seg h Y hb
      | some rest =>
        simp only [hkc] at h
        exact absurd h (by simp)

theorem tableCheck_some_sound :
    ∀ (ks : List (List Char)) (seg : List Char) (k0 rest : List Char),
      tableCheck ks seg = some (some (k0, rest)) →
      k0 ∈ ks ∧ seg = k0 ++ rest ∧ boundaryOk rest = true ∧
      (∀ Y, boundaryOk Y = true →
        tryTable false ks (seg ++ Y) = some (k0, rest ++ Y)) := by
  intro ks
  induction ks with
  | nil => intro seg k0 rest h; exact absurd h (by simp [tableCheck])
  | cons k ks ih =>
    intro seg k0 rest h
    rw [tableCheck] at h
    cases hkc : keyCheck k seg with
    | none => rw [hkc] at h; exact absurd h (by simp)
    | some o =>
      cases o with
      | none =>
        simp only [hkc] at h
        obtain ⟨hmem, hseg, hbrest, htry⟩ := ih seg k0 rest h
        refine ⟨by simp [hmem], hseg, hbrest, ?_⟩
        intro Y hb
        rw [tryTable_cons_hit_false (keyCheck_none_sound k seg hkc Y hb)]
        exact htry Y hb
      | some r =>
        simp only [hkc, Option.some.injEq, Prod.mk.injEq] at h
        obtain ⟨h1, h2⟩ := h
        obtain ⟨hseg, hbrest⟩ := keyCheck_match_sound k seg r hkc
        rw [h1] at hseg
        rw [h2] at hseg hbrest
        refine ⟨by rw [← h1]; simp, hseg, hbrest, ?_⟩
        intro Y hb
        have hhit : hit k0 (seg ++ Y) = true := by
          unfold hit
          rw [hseg, List.append_assoc, isPrefixOf_append_self, List.drop_left]
          cases rest with
          | nil => simpa using hb
          | cons d ds => rw [boundaryOk_append Y (by simp)]; simpa using hbrest
        rw [h1, tryTable_cons_hit_true hhit]
        rw [hseg, List.append_assoc, List.drop_left]

/-- Table fact: all contraction keys are non-empty. -/
theorem ctrKeys_ne : ∀ k ∈ ctrKeys, k ≠ [] := by decide

/-- Soundness of the symbolic segment scan: when the checker accepts a
segment, the engine copies it verbatim in front of any boundary-safe
continuation and proceeds in the reported state. -/
theorem segScan_sound :
    ∀ (n : Nat) (r : List Char) (b w : Bool), r.length ≤ n →
      segScan n b r = some w → ∀ Y, boundaryOk Y = true →
        subCF b (r ++ Y) = r ++ subCF w Y := by
  intro n
  induction n with
  | zero =>
    intro r b w _ h Y _
    cases r with
    | nil => injection h with h; subst h; rfl
    | cons c cs => exact absurd h (by simp [segScan])
  | succ n ih =>
    intro r b w hlen h Y hb
    cases r with
    | nil => injection h with h; subst h; rfl
    | cons c cs =>
      rw [segScan] at h
      cases b with
      | true =>
        simp only [if_true] at h
        show subCF true (c :: (cs ++ Y)) = _
        unfold subCF
        rw [subF_step_none (by simp)]
        show c :: subCF (isWordChar c) (cs ++ Y) = _
        rw [ih cs (isWordChar c) w (by simpa using hlen) h Y hb]
        rfl
      | false =>
        simp only [Bool.false_eq_true, if_false] at h
        cases htc : tableCheck ctrKeys (c :: cs) with
        | none => rw [htc] at h; exact absurd h (by simp)
        | some o =>
          cases o with
          | none =>
            simp only [htc] at h
            have hnone := tableCheck_none_sound ctrKeys (c :: cs) htc Y hb
            rw [List.cons_append] at hnone
            show subCF false (c :: (cs ++ Y)) = _
            unfold subCF
            rw [subF_step_none (by simp [hnone])]
            show c :: subCF (isWordChar c) (cs ++ Y) = _
            rw [ih cs (isWordChar c) w (by simpa using hlen) h Y hb]
            rfl
          | some pr =>
            obtain ⟨k, rest⟩ := pr
            simp only [htc] at h
            by_cases hrepl : replContraction k = k
            · rw [if_pos hrepl] at h
              obtain ⟨hmem, hseg, _, htry⟩ :=
                tableCheck_some_sound ctrKeys (c :: cs) k rest htc
              have hrlen : rest.length < (c :: cs).length := by
                have := congrArg List.length hseg
                simp only [List.length_append, List.length_cons] at this ⊢
                have hkpos : 0 < k.length :=
                  List.length_pos.mpr (ctrKeys_ne k hmem)
                omega
              have htryY := htry Y hb
              rw [List.cons_append] at htryY
              show subCF false (c :: (cs ++ Y)) = _
              unfold subCF
              rw [subF_step_some ctrKeys_ne htryY]
              show replContraction k ++ subCF (lastIsWord k) (rest ++ Y) = _
              rw [hrepl]
              rw [ih rest (lastIsWord k) w
                (by simp only [List.length_cons] at hlen hrlen; omega) h Y hb]
              rw [hseg, List.append_assoc]
              rfl
            · rw [if_neg hrepl] at h
              exact absurd h (by simp)

/-!
C7: locating the first replacement
-/

theorem firstMatch_none_sound :
    ∀ (n : Nat) (b : Bool) (l : List Char), l.length ≤ n →
      firstMatch n b l = none → subCF b l = l := by
  intro n
  induction n with
  | zero =>
    intro b l hl _
    have h : l = [] := List.length_eq_zero.mp (Nat.le_zero.mp hl)
    subst h
    rfl
  | succ n ih =>
    intro b l hl h
    cases l with
    | nil => rfl
    | cons c cs =>
      rw [firstMatch] at h
      rcases hM : (if b then none else tryTable false ctrKeys (c :: cs)) with _ | p
      · simp only [hM] at h
        rcases hF : firstMatch n (isWordChar c) cs with _ | q
        · unfold subCF
          rw [subF_step_none hM]
          show c :: subCF (isWordChar c) cs = c :: cs
          rw [ih (isWordChar c) cs (by simpa using hl) hF]
        · rw [hF] at h
          exact absurd h (by simp)
      · rw [hM] at h
        exact absurd h (by simp)

theorem firstMatch_some_sound :
    ∀ (n : Nat) (b : Bool) (l lit m rest : List Char), l.length ≤ n →
      firstMatch n b l = some (lit, m, rest) →
      l = lit ++ (m ++ rest) ∧
      LitFree b lit (m ++ rest) ∧
      stateAfter b lit = false ∧
      tryTable false ctrKeys (m ++ rest) = some (m, rest) ∧
      subCF b l = lit ++ (replContraction m ++ subCF (lastIsWord m) rest) := by
  intro n
  induction n with
  | zero => intro b l lit m rest _ h; exact absurd h (by simp [firstMatch])
  | succ n ih =>
    intro b l lit m rest hl h
    cases l with
    | nil => exact absurd h (by simp [firstMatch])
    | cons c cs =>
      rw [firstMatch] at h
      rcases hM : (if b then none else tryTable false ctrKeys (c :: cs)) with _ | p
      · simp only [hM] at h
        rcases hF : firstMatch n (isWordChar c) cs with _ | q
        · rw [hF] at h; exact absurd h (by simp)
        · rw [hF] at h
          rw [show Option.map (fun q => (c :: q.1, q.2.1, q.2.2)) (some q)
              = some (c :: q.1, q.2.1, q.2.2) from rfl] at h
          injection h with h
          simp only [Prod.mk.injEq] at h
          obtain ⟨h1, h2, h3⟩ := h
          obtain ⟨ihsplit, ihfree, ihsa, ihtry, iheq⟩ :=
            ih (isWordChar c) cs q.1 q.2.1 q.2.2 (by simpa using hl) (by rw [hF])
          subst h1
          subst h2
          subst h3
          refine ⟨by rw [List.cons_append, ← ihsplit], ?_, ?_, ihtry, ?_⟩
          · refine LitFree.cons b c q.1 (q.2.1 ++ q.2.2) ?_ ihfree
            cases b with
            | true => exact Or.inl rfl
            | false =>
              refine Or.inr ?_
              rw [← ihsplit]
              simpa using hM
          · show stateAfter (isWordChar c) q.1 = false
            exact ihsa
          · unfold subCF
            rw [subF_step_none hM]
            show c :: subCF (isWordChar c) cs = _
            rw [iheq]
            rfl
      · have hb : b = false := by
          cases b with
          | true => simp at hM
          | false => rfl
        subst hb
        simp only [hM] at h
        injection h with h
        simp only [Prod.mk.injEq] at h
        obtain ⟨e1, e2, e3⟩ := h
        subst e1
        subst e2
        subst e3
        have hp : tryTable false ctrKeys (c :: cs) = some p := by simpa using hM
        obtain ⟨k, hk, hpm, hbound⟩ := tryTable_mem false ctrKeys (c :: cs) p hp
        obtain ⟨hsplit, _⟩ := prefMatch_split false k (c :: cs) p hpm
        refine ⟨by simpa using hsplit, LitFree.nil false _, rfl, ?_, ?_⟩
        · rw [← hsplit]
          simpa using hp
        · unfold subCF
          rw [subF_step_some ctrKeys_ne hp]
          rfl

/-!
C7: a match-free run stays match-free in front of a replacement
-/

theorem stateAfter_getLast :
    ∀ (lit : List Char) (b : Bool) (h : lit ≠ []),
      stateAfter b lit = isWordChar (lit.getLast h) := by
  intro lit
  induction lit with
  | nil => intro b h; exact absurd rfl h
  | cons c lit ih =>
    intro b h
    cases lit with
    | nil => rfl
    | cons d t =>
      show stateAfter (isWordChar c) (d :: t) = _
      rw [ih (isWordChar c) (by simp)]
      congr 1

/-- Table fact: the characters of every contraction key are word
characters or the apostrophe. -/
theorem ctrKeys_chars : ∀ k ∈ ctrKeys, ∀ ch ∈ k, isWordChar ch = true ∨ ch = apoc := by
  decide

/-- Table fact: every contraction key ends in a word character. -/
theorem ctrKeys_lastIsWord : ∀ k ∈ ctrKeys, lastIsWord k = true := by decide

/-- Table fact: every replacement string starts with a word
character. -/
theorem repl_head_word :
    ∀ k ∈ ctrKeys, (replContraction k).take 1 ≠ [] ∧
      ∀ z ∈ (replContraction k).take 1, isWordChar z = true := by
  decide

/-- Table fact: no after-apostrophe tail of a key matches whole-word at
the head of any replacement string — each tail is strictly shorter than
every replacement, and its hit fails inside the replacement. -/
theorem core_tails :
    ∀ k ∈ ctrKeys, ∀ t ∈ tailsOfKey k, ∀ k2 ∈ ctrKeys,
      t.length < (replContraction k2).length ∧
      hit t (replContraction k2) = false := by
  decide

/-- Table fact: the checker accepts every replacement string, ending in
the word-side boundary state. -/
theorem repls_segOK :
    ∀ k ∈ ctrKeys,
      segScan (replContraction k).length false (replContraction k) = some true := by
  decide

theorem mem_tailsOfKey {k : List Char} {a : Nat} (ha : a < k.length)
    (hap : k.get? a = some apoc) : k.drop (a + 1) ∈ tailsOfKey k := by
  unfold tailsOfKey
  apply List.mem_filterMap.mpr
  exact ⟨a, List.mem_range.mpr ha, by rw [if_pos hap]⟩

/-- Any continuation made of a replacement string and a further tail
satisfies the junction conditions. -/
theorem ZOK_repl {m : List Char} (hm : m ∈ ctrKeys) (O : List Char) :
    ZOK (replContraction m ++ O) := by
  constructor
  · obtain ⟨hne1, hw1⟩ := repl_head_word m hm
    cases hR : replContraction m with
    | nil => rw [hR] at hne1; exact absurd rfl hne1
    | cons z zs =>
      rw [hR] at hw1
      exact ⟨z, zs ++ O, by simp, hw1 z (by simp)⟩
  · intro k hk t ht
    obtain ⟨hlen, hhit⟩ := core_tails k hk t ht m hm
    rw [hit_confine hlen O []]
    rw [List.append_nil]
    exact hhit

/-- The match-free prefix of the scan stays match-free when its
continuation is replaced by any `Z` satisfying the junction
conditions. -/
theorem lit_scan {lit : List Char} {b : Bool} {cont : List Char}
    (hfree : LitFree b lit cont) :
    ∀ Z, stateAfter b lit = false → ZOK Z →
      subCF b (lit ++ Z) = lit ++ subCF false Z := by
  induction hfree with
  | nil b cont =>
    intro Z hsa _
    have hb : b = false := hsa
    subst hb
    rfl
  | cons b c lit cont hb hfree ih =>
    intro Z hsa hz
    have hsa2 : stateAfter (isWordChar c) lit = false := hsa
    show subCF b (c :: (lit ++ Z)) = (c :: lit) ++ subCF false Z
    cases b with
    | true =>
      unfold subCF
      rw [subF_step_none (by simp)]
      show c :: subCF (isWordChar c) (lit ++ Z) = _
      rw [ih Z hsa2 hz]
      rfl
    | false =>
      have horig : tryTable false ctrKeys (c :: (lit ++ cont)) = none := by
        rcases hb with hb | hb
        · exact absurd hb (by simp)
        · exact hb
      have hnone : tryTable false ctrKeys ((c :: lit) ++ Z) = none := by
        rw [tryTable_false_none_iff]
        intro k hk
        have horigk : hit k ((c :: lit) ++ cont) = false := by
          have := (tryTable_false_none_iff ctrKeys (c :: (lit ++ cont))).mp horig k hk
          simpa using this
        rcases Nat.lt_trichotomy k.length (c :: lit).length with hlt | heqn | hgt
        · rw [hit_confine hlt Z cont]
          exact horigk
        · rw [hit_eq_length heqn Z]
          obtain ⟨z, zs, hZ, hzw⟩ := hz.1
          rw [hZ]
          simp [boundaryOk, hzw]
        · by_contra hcon
          have hhit : hit k ((c :: lit) ++ Z) = true := (Bool.not_eq_false _).mp hcon
          obtain ⟨tail, hkeq, htne, htail⟩ := hit_long_split hgt hhit
          have hLw : isWordChar ((c :: lit).getLast (by simp)) = false := by
            rw [← stateAfter_getLast (c :: lit) false (by simp)]
            exact hsa
          have hLmem : (c :: lit).getLast (by simp) ∈ k := by
            rw [hkeq]
            exact List.mem_append_left tail (List.getLast_mem _)
          have hLapo : (c :: lit).getLast (by simp) = apoc := by
            rcases ctrKeys_chars k hk _ hLmem with hw | ha
            · rw [hLw] at hw; exact Bool.noConfusion hw
            · exact ha
          have hga : k.get? ((c :: lit).length - 1) = some apoc := by
            rw [List.get?_eq_getElem?, hkeq]
            rw [List.getElem?_append_left
              (by simp only [List.length_cons]; omega)]
            rw [← List.getLast?_eq_getElem?]
            rw [List.getLast?_eq_getLast (c :: lit) (by simp)]
            rw [hLapo]
          have hmemT : tail ∈ tailsOfKey k := by
            have hsub : k.drop ((c :: lit).length - 1 + 1) = tail := by
              have hgt1 : 0 < (c :: lit).length := by simp
              rw [show (c :: lit).length - 1 + 1 = (c :: lit).length from by omega]
              rw [hkeq, List.drop_left]
            rw [← hsub]
            apply mem_tailsOfKey
            · have := congrArg List.length hkeq
              simp only [List.length_append] at this
              have htpos : 0 < tail.length := List.length_pos.mpr htne
              omega
            · exact hga
          have := hz.2 k hk tail hmemT
          rw [htail] at this
          exact Bool.noConfusion this
      have hnone2 : (if false then none else tryTable false ctrKeys (c :: (lit ++ Z))) = none := by
        simpa using hnone
      unfold subCF
      rw [subF_step_none hnone2]
      show c :: subCF (isWordChar c) (lit ++ Z) = _
      rw [ih Z hsa2 hz]
      rfl

/-!
C7: idempotence of the contraction substitution
-/

theorem subCF_idem :
    ∀ (n : Nat) (l : List Char) (b : Bool), l.length ≤ n →
      subCF b (subCF b l) = subCF b l := by
  intro n
  induction n with
  | zero =>
    intro l b hl
    have h : l = [] := List.length_eq_zero.mp (Nat.le_zero.mp hl)
    subst h
    rfl
  | succ n ih =>
    intro l b hl
    rcases hFM : firstMatch l.length b l with _ | ⟨lit, m, rest⟩
    · have he := firstMatch_none_sound l.length b l le_rfl hFM
      rw [he, he]
    · obtain ⟨hsplit, hfree, hsa, htry, heq⟩ :=
        firstMatch_some_sound l.length b l lit m rest le_rfl hFM
      obtain ⟨k, hk, hpm, hbrest⟩ := tryTable_mem false ctrKeys (m ++ rest) (m, rest) htry
      have hmk : m = k := prefMatch_exact k (m ++ rest) (m, rest) hpm
      have hmem : m ∈ ctrKeys := hmk ▸ hk
      have hlast : lastIsWord m = true := ctrKeys_lastIsWord m hmem
      have hbO : boundaryOk (subCF true rest) = true := by
        cases rest with
        | nil => rfl
        | cons d ds =>
          have hd : isWordChar d = false := by simpa [boundaryOk] using hbrest
          have hstep : subCF true (d :: ds) = d :: subCF (isWordChar d) ds := by
            unfold subCF
            rw [subF_step_none (by simp)]
          rw [hstep]
          simpa [boundaryOk] using hd
      have hrlen : rest.length ≤ n := by
        have h1 := congrArg List.length hsplit
        have hkpos : 0 < m.length := List.length_pos.mpr (ctrKeys_ne m hmem)
        simp only [List.length_append] at h1
        omega
      have hZ : ZOK (replContraction m ++ subCF true rest) := ZOK_repl hmem _
      have hseg : subCF false (replContraction m ++ subCF true rest)
          = replContraction m ++ subCF true (subCF true rest) :=
        segScan_sound (replContraction m).length (replContraction m) false true le_rfl
          (repls_segOK m hmem) (subCF true rest) hbO
      have hidO : subCF true (subCF true rest) = subCF true rest := ih rest true hrlen
      have heq2 : subCF b l = lit ++ (replContraction m ++ subCF true rest) := by
        rw [heq, hlast]
      rw [heq2, lit_scan hfree _ hsa hZ, hseg, hidO]

/-- C7 counterexample: the expansion produced for the key can + apostrophe + t
is `cannot`, which is itself a table key and occurs in that expansion
as a whole word — refuting the premise of the claim that no expansion string
contains a contraction-table key as a whole word. -/
theorem expansion_contains_table_key :
    replContraction (apo "can" "t") = "cannot".data ∧
    "cannot".data ∈ ctrKeys ∧
    scanAll false ctrKeys (replContraction (apo "can" "t")) = ["cannot".data] := by
  decide

/-- C7 (corrected). The contraction-substitution step of
`clean_text` is idempotent: applying it twice equals applying it once.
The reason is not that no expansion contains a table key — `cannot`
does — but that every expansion either contains no table key as a whole
word or is exactly `cannot`, whose key maps to itself, so the second
pass changes nothing. -/
theorem contraction_substitution_idempotent :
    (∀ s : List Char, cleanContractions (cleanContractions s) = cleanContractions s) ∧
    (ctrKeys.all (fun k =>
      decide (scanAll false ctrKeys (replContraction k) = []) ||
      (decide (replContraction k = "cannot".data) &&
       decide (scanAll false ctrKeys (replContraction k) = ["cannot".data]))) = true) := by
  constructor
  · intro s
    show subCF false (subCF false s) = subCF false s
    exact subCF_idem s.length s false le_rfl
  · decide

end StyleAssistant
